import Mathlib

/-!
Verification of the `flags` repository: a Go library binding struct fields to
command-line flags with environment-variable overrides and a string value codec.

The embedding models the value codec (`FieldItem.String` / `FieldItem.Set` in
`struct.go`, `reflectSet` / `reflectGet` in `flags.go`), the struct binder
(`ParseStruct` in `struct.go`), tag handling (`fieldName`, `fieldTag`,
`jEnvKey`, `fieldsSplit`), the deprecation-marker handling of `AddToSet`
(`pflag.go` with `reDeprecated` from the regex source file) and the
config-file content-type selection (`getCotentType` / `configFileValue.Set`).

Go standard-library routines the code calls (`strconv`, `time.ParseDuration`,
`time.Parse` with the RFC-3339 layout, `net.ParseIP`, `net.ParseCIDR`, the
`String` methods of `time.Duration`, `net.IP`, `net.IPNet`) are external
collaborators; they are modelled here from their documented behaviour.
Strings are modelled as lists of characters.  Floating-point fields are the
one kind left out of the value model: their codec goes through IEEE-754
`strconv.FormatFloat`/`ParseFloat`, which does not translate to this
embedding.
-/

namespace FlagsSpec

/-! ## Decimal digits (strconv.FormatUint / ParseUint / FormatInt / ParseInt) -/

/-- One decimal digit rendered as a character (`0`-`9`). -/
def decDigitChar (d : Nat) : Char := Char.ofNat (48 + d)

/-- Base-`b` digits, least significant first, by fuel-bounded recursion
(so that terms evaluate by kernel reduction). -/
def digitsRev (b : Nat) : Nat → Nat → List Nat
  | _, 0 => []
  | 0, _ + 1 => []
  | fuel + 1, n + 1 => (n + 1) % b :: digitsRev b fuel ((n + 1) / b)

/-- Decimal rendering of a natural number, most significant digit first.
Model of the digit loop shared by `strconv.FormatUint` and the `fmtInt`
helper of `time.Duration.String`. -/
def formatNat (n : Nat) : List Char :=
  if n = 0 then ['0'] else (digitsRev 10 n n).reverse.map decDigitChar

/-- ASCII decimal digit test. -/
def isDecDigit (c : Char) : Bool := 48 ≤ c.toNat && c.toNat ≤ 57

/-- Numeric value of a digit string (most significant first). -/
def decVal (cs : List Char) : Nat := cs.foldl (fun a c => a * 10 + (c.toNat - 48)) 0

/-- `strconv.ParseUint(s, 10, 64)`: nonempty all-digit strings below `2^64`. -/
def goParseUint64 (cs : List Char) : Option Nat :=
  if cs ≠ [] ∧ cs.all isDecDigit then
    let v := decVal cs
    if v < 2 ^ 64 then some v else none
  else none

/-- `strconv.FormatUint(v, 10)`. -/
def goFormatUint (n : Nat) : List Char := formatNat n

/-- `strconv.FormatInt(v, 10)`. -/
def goFormatInt (i : Int) : List Char :=
  if i < 0 then '-' :: formatNat i.natAbs else formatNat i.toNat

/-- Magnitude part of `strconv.ParseInt(s, 10, 64)` after the sign. -/
def goParseIntMag (neg : Bool) (mag : List Char) : Option Int :=
  if mag ≠ [] ∧ mag.all isDecDigit then
    let v := decVal mag
    if neg then
      if v ≤ 2 ^ 63 then some (-(v : Int)) else none
    else
      if v < 2 ^ 63 then some (v : Int) else none
  else none

/-- `strconv.ParseInt(s, 10, 64)`: optional sign, digits, `int64` range check. -/
def goParseInt64 (cs : List Char) : Option Int :=
  match cs with
  | [] => none
  | c :: rest =>
    if c = '-' then goParseIntMag true rest
    else if c = '+' then goParseIntMag false rest
    else goParseIntMag false (c :: rest)

theorem char_ofNat_toNat {n : Nat} (h : n < 55296) : (Char.ofNat n).toNat = n := by
  unfold Char.ofNat
  split
  · rfl
  · omega

theorem decDigitChar_toNat {d : Nat} (h : d < 10) : (decDigitChar d).toNat = 48 + d := by
  unfold decDigitChar
  exact char_ofNat_toNat (by omega)

theorem digitsRev_eq_digits {b : Nat} (hb : 2 ≤ b) :
    ∀ (fuel n : Nat), n ≤ fuel → digitsRev b fuel n = Nat.digits b n := by
  intro fuel
  induction fuel with
  | zero =>
    intro n hn
    interval_cases n
    simp [digitsRev]
  | succ f ih =>
    intro n hn
    cases n with
    | zero => simp [digitsRev]
    | succ m =>
      rw [show digitsRev b (f + 1) (m + 1) = (m + 1) % b :: digitsRev b f ((m + 1) / b) from rfl]
      rw [ih ((m + 1) / b) (by
        have h2 : (m + 1) / b < m + 1 := Nat.div_lt_self (Nat.succ_pos m) (by omega)
        omega)]
      conv_rhs => rw [Nat.digits_def' hb (Nat.succ_pos m)]

theorem formatNat_eq (n : Nat) :
    formatNat n = if n = 0 then ['0'] else (Nat.digits 10 n).reverse.map decDigitChar := by
  unfold formatNat
  by_cases h : n = 0
  · simp [h]
  · simp only [h, if_false]
    rw [digitsRev_eq_digits (by norm_num) n n le_rfl]

theorem decVal_foldl_init (cs : List Char) (init : Nat) :
    cs.foldl (fun a c => a * 10 + (c.toNat - 48)) init =
      init * 10 ^ cs.length + decVal cs := by
  induction cs generalizing init with
  | nil => simp [decVal]
  | cons c t ih =>
    simp only [List.foldl_cons, decVal]
    rw [ih, ih (0 * 10 + (c.toNat - 48))]
    simp only [List.length_cons]
    ring

theorem decVal_append (a b : List Char) :
    decVal (a ++ b) = decVal a * 10 ^ b.length + decVal b := by
  unfold decVal
  rw [List.foldl_append, decVal_foldl_init]
  rfl

theorem decVal_formatNat (n : Nat) : decVal (formatNat n) = n := by
  rw [formatNat_eq]
  by_cases h : n = 0
  · simp [h, decVal]
  · simp only [h, if_false]
    have key : ∀ L : List Nat, (∀ d ∈ L, d < 10) →
        decVal (L.reverse.map decDigitChar) = Nat.ofDigits 10 L := by
      intro L
      induction L with
      | nil => intro _; simp [decVal, Nat.ofDigits]
      | cons d t ih =>
        intro hd
        have hdlt : d < 10 := hd d (List.mem_cons_self d t)
        have ht : ∀ x ∈ t, x < 10 := fun x hx => hd x (List.mem_cons_of_mem d hx)
        simp only [List.reverse_cons, List.map_append, List.map]
        rw [decVal_append, ih ht]
        have hc : decVal [decDigitChar d] = d := by
          simp only [decVal, List.foldl]
          rw [decDigitChar_toNat hdlt]
          omega
        rw [hc]
        simp only [List.length_map, List.length_cons, List.length_nil, Nat.ofDigits_cons]
        push_cast
        ring
    have hlt : ∀ d ∈ Nat.digits 10 n, d < 10 :=
      fun d hd => Nat.digits_lt_base (by norm_num) hd
    rw [key (Nat.digits 10 n) hlt, Nat.ofDigits_digits 10 n]

theorem formatNat_all_digits (n : Nat) : (formatNat n).all isDecDigit = true := by
  rw [formatNat_eq]
  by_cases h : n = 0
  · simp only [h, if_true]
    decide
  · simp only [h, if_false, List.all_eq_true]
    intro c hc
    simp only [List.mem_map, List.mem_reverse] at hc
    obtain ⟨d, hd, rfl⟩ := hc
    have hdlt : d < 10 := Nat.digits_lt_base (b := 10) (by norm_num) hd
    simp only [isDecDigit, decDigitChar_toNat hdlt]
    simp only [Bool.and_eq_true, decide_eq_true_eq]
    omega

theorem formatNat_ne_nil (n : Nat) : formatNat n ≠ [] := by
  rw [formatNat_eq]
  by_cases h : n = 0
  · simp [h]
  · simp only [h, if_false]
    intro hcon
    have h2 := Nat.digits_ne_nil_iff_ne_zero (b := 10) |>.mpr h
    simp only [List.map_eq_nil_iff, List.reverse_eq_nil_iff] at hcon
    exact h2 hcon

theorem goParseIntMag_formatNat_pos (n : Nat) (h : n < 2 ^ 63) :
    goParseIntMag false (formatNat n) = some (n : Int) := by
  unfold goParseIntMag
  rw [if_pos ⟨formatNat_ne_nil n, formatNat_all_digits n⟩]
  simp only [decVal_formatNat, Bool.false_eq_true, if_false, h, if_true]

theorem goParseIntMag_formatNat_neg (n : Nat) (h : n ≤ 2 ^ 63) :
    goParseIntMag true (formatNat n) = some (-(n : Int)) := by
  unfold goParseIntMag
  rw [if_pos ⟨formatNat_ne_nil n, formatNat_all_digits n⟩]
  simp only [if_true, decVal_formatNat, h]

theorem goParseUint64_goFormatUint (n : Nat) (h : n < 2 ^ 64) :
    goParseUint64 (goFormatUint n) = some n := by
  unfold goParseUint64 goFormatUint
  rw [if_pos ⟨formatNat_ne_nil n, formatNat_all_digits n⟩]
  simp only [decVal_formatNat, h, if_true]

theorem goParseInt64_goFormatInt (i : Int) (h1 : -(2 ^ 63) ≤ i) (h2 : i < 2 ^ 63) :
    goParseInt64 (goFormatInt i) = some i := by
  unfold goFormatInt
  by_cases hneg : i < 0
  · simp only [hneg, if_true]
    show goParseInt64 ('-' :: formatNat i.natAbs) = some i
    simp only [goParseInt64, if_pos rfl]
    rw [goParseIntMag_formatNat_neg i.natAbs (by omega)]
    exact congrArg some (by omega)
  · simp only [hneg, if_false]
    have h0 : 0 ≤ i := by omega
    have hfmt := formatNat_ne_nil i.toNat
    cases hf : formatNat i.toNat with
    | nil => exact absurd hf hfmt
    | cons c rest =>
      have hcdig : isDecDigit c = true := by
        have hall := formatNat_all_digits i.toNat
        rw [hf] at hall
        simp only [List.all_cons, Bool.and_eq_true] at hall
        exact hall.1
      have hcne1 : c ≠ '-' := by
        intro hcon; rw [hcon] at hcdig; exact absurd hcdig (by decide)
      have hcne2 : c ≠ '+' := by
        intro hcon; rw [hcon] at hcdig; exact absurd hcdig (by decide)
      simp only [goParseInt64, if_neg hcne1, if_neg hcne2]
      rw [← hf, goParseIntMag_formatNat_pos i.toNat (by omega)]
      exact congrArg some (by omega)

/-! ## time.Duration: String and ParseDuration -/

/-- Zero-padded fixed-width decimal (used for fraction digits and RFC-3339
fields): `n` rendered with exactly `k` digits, `n < 10^k`. -/
def padDecimal (k n : Nat) : List Char :=
  List.replicate (k - (formatNat n).length) '0' ++ formatNat n

/-- Strip trailing `'0'` characters (the omit-trailing-zeros loop of
`fmtFrac`). -/
def dropTrailingZeros (cs : List Char) : List Char :=
  (cs.reverse.dropWhile (fun c => c = '0')).reverse

/-- `fmtFrac(buf, v, prec)` of `time.Duration.format`: the fraction text
(with its leading `'.'`, trailing zeros omitted, empty if the fraction is
zero) and the remaining integer part `v / 10^prec`. -/
def fmtFrac (v prec : Nat) : List Char × Nat :=
  let frac := v % 10 ^ prec
  let rest := v / 10 ^ prec
  if frac = 0 then ([], rest)
  else ('.' :: dropTrailingZeros (padDecimal prec frac), rest)

/-- The buffer `time.Duration.String()` builds before the sign is applied,
for an absolute value of `u` nanoseconds. -/
def durationBody (u : Nat) : List Char :=
  if u < 10 ^ 9 then
    if u = 0 then ['0', 's']
    else if u < 10 ^ 3 then
      formatNat u ++ ['n', 's']
    else if u < 10 ^ 6 then
      let (fr, w) := fmtFrac u 3
      formatNat w ++ fr ++ ['µ', 's']
    else
      let (fr, w) := fmtFrac u 6
      formatNat w ++ fr ++ ['m', 's']
  else
    let (fr, sec) := fmtFrac u 9
    let secPart := formatNat (sec % 60) ++ fr ++ ['s']
    let m := sec / 60
    if m = 0 then secPart
    else
      let minPart := formatNat (m % 60) ++ ['m'] ++ secPart
      let h := m / 60
      if h = 0 then minPart else formatNat h ++ ['h'] ++ minPart

/-- `time.Duration.String()` for a duration of `d` nanoseconds
(`d` in the `int64` range). -/
def durationString (d : Int) : List Char :=
  let u := d.natAbs
  let neg := d < 0
  let body := durationBody u
  if neg ∧ u ≠ 0 then '-' :: body else body

/-- `leadingInt` of `time.ParseDuration`: consume leading digits; `none`
on overflow past `2^63`. -/
def leadingInt (cs : List Char) : Option (Nat × List Char) :=
  let digits := cs.takeWhile isDecDigit
  let rest := cs.dropWhile isDecDigit
  if decVal digits > 2 ^ 63 then none else some (decVal digits, rest)

/-- `leadingFraction` of `time.ParseDuration`: consume leading digits,
returning the accumulated value and scale; accumulation stops (losing
precision) once the scale would overflow, but digits keep being consumed. -/
def leadingFraction (cs : List Char) : Nat × Nat × List Char :=
  let digits := cs.takeWhile isDecDigit
  let rest := cs.dropWhile isDecDigit
  let step := fun (acc : Nat × Nat) (c : Char) =>
    let (x, scale) := acc
    if scale > 2 ^ 63 / 10 then (x, scale)
    else
      let y := x * 10 + (c.toNat - 48)
      if y > 2 ^ 63 then (x, scale) else (y, scale * 10)
  let (f, scale) := digits.foldl step (0, 1)
  (f, scale, rest)

/-- The `unitMap` of `time.ParseDuration` (nanoseconds per unit). -/
def unitMap (u : List Char) : Option Nat :=
  if u = ['n', 's'] then some 1
  else if u = ['u', 's'] then some 1000
  else if u = ['µ', 's'] then some 1000      -- U+00B5 micro sign
  else if u = ['μ', 's'] then some 1000      -- U+03BC greek letter mu
  else if u = ['m', 's'] then some (10 ^ 6)
  else if u = ['s'] then some (10 ^ 9)
  else if u = ['m'] then some (60 * 10 ^ 9)
  else if u = ['h'] then some (3600 * 10 ^ 9)
  else none

/-- One character of the unit-name scan of `ParseDuration` (stop at a digit
or `'.'`). -/
def isUnitChar (c : Char) : Bool := ¬ (c = '.' ∨ isDecDigit c)

/-- The main loop of `time.ParseDuration`: repeatedly read
`[digits][.digits]unit`, accumulating nanoseconds in `d`.  Go computes the
fractional contribution as `uint64(float64(f) * (float64(unit)/scale))`;
that float64 product is exact whenever `scale ≤ unit` (both are powers of
ten, so `unit/scale` is an exact small integer and the product stays far
below `2^53`), which covers every string `Duration.String` can produce; it
is modelled here as the exact `f * unit / scale`. -/
def parseDurationLoop (fuel : Nat) (cs : List Char) (d : Nat) : Option Nat :=
  match fuel with
  | 0 => none
  | fuel + 1 =>
    match cs with
    | [] => some d
    | c :: _ =>
      if ¬ (c = '.' ∨ isDecDigit c) then none
      else
        match leadingInt cs with
        | none => none
        | some (v, s1) =>
          let pre : Bool := s1.length ≠ cs.length
          let (f, scale, s2, post) :=
            match s1 with
            | c1 :: tl =>
              if c1 = '.' then
                let (f, scale, rest) := leadingFraction tl
                (f, scale, rest, (rest.length ≠ tl.length : Bool))
              else (0, 1, c1 :: tl, (false : Bool))
            | [] => (0, 1, ([] : List Char), (false : Bool))
          if ¬ pre ∧ ¬ post then none
          else
            let u := s2.takeWhile isUnitChar
            let s3 := s2.dropWhile isUnitChar
            if u = [] then none
            else
              match unitMap u with
              | none => none
              | some unit =>
                if v > 2 ^ 63 / unit then none
                else
                  let v1 := v * unit
                  let v2 := if f > 0 then v1 + f * unit / scale else v1
                  if v2 > 2 ^ 63 then none
                  else
                    let d1 := d + v2
                    if d1 > 2 ^ 63 then none
                    else parseDurationLoop fuel s3 d1

/-- `time.ParseDuration`. -/
def goParseDuration (cs : List Char) : Option Int :=
  let (neg, s) :=
    match cs with
    | c :: tl =>
      if c = '-' then (true, tl)
      else if c = '+' then (false, tl)
      else (false, c :: tl)
    | [] => (false, ([] : List Char))
  if s = ['0'] then some 0
  else if s = [] then none
  else
    match parseDurationLoop (s.length + 1) s 0 with
    | none => none
    | some d =>
      if neg then some (-(d : Int))
      else if d > 2 ^ 63 - 1 then none
      else some (d : Int)

/-! ## time.Time: RFC-3339 format and strict parse

`time.Time` is modelled by its civil fields plus the fixed zone offset in
minutes — exactly the data the RFC-3339 rendering exchanges.  The RFC-3339
grammar carries four year digits, so `year ≤ 9999` in the model; the
`Format(time.RFC3339)` layout carries no fraction, while the strict parser
accepts an optional one. -/

structure GoTime where
  year : Nat
  month : Nat
  day : Nat
  hour : Nat
  minute : Nat
  second : Nat
  nsec : Nat
  offsetMin : Int
deriving DecidableEq

/-- Gregorian leap year (`isLeap` of package `time`). -/
def isLeap (y : Nat) : Bool := y % 4 = 0 && (y % 100 ≠ 0 || y % 400 = 0)

/-- `daysIn(m, year)` of package `time`. -/
def daysIn (m y : Nat) : Nat :=
  if m = 2 then (if isLeap y then 29 else 28)
  else if m = 4 ∨ m = 6 ∨ m = 9 ∨ m = 11 then 30
  else 31

/-- Field ranges the RFC-3339 codec preserves (and the strict parser checks). -/
def goTimeValid (t : GoTime) : Bool :=
  t.year ≤ 9999 && 1 ≤ t.month && t.month ≤ 12 && 1 ≤ t.day &&
  t.day ≤ daysIn t.month t.year && t.hour ≤ 23 && t.minute ≤ 59 &&
  t.second ≤ 59 && t.nsec < 10 ^ 9 && t.offsetMin.natAbs ≤ 23 * 60 + 59

/-- The zero `time.Time` (January 1, year 1, 00:00:00 UTC). -/
def goTimeZero : GoTime := ⟨1, 1, 1, 0, 0, 0, 0, 0⟩

/-- `t.Format(time.RFC3339)`: no fractional seconds in this layout. -/
def rfc3339Format (t : GoTime) : List Char :=
  padDecimal 4 t.year ++ '-' :: padDecimal 2 t.month ++ '-' :: padDecimal 2 t.day ++
  'T' :: padDecimal 2 t.hour ++ ':' :: padDecimal 2 t.minute ++ ':' :: padDecimal 2 t.second ++
  (if t.offsetMin = 0 then ['Z']
   else (if t.offsetMin < 0 then '-' else '+') ::
     (padDecimal 2 (t.offsetMin.natAbs / 60) ++ ':' :: padDecimal 2 (t.offsetMin.natAbs % 60)))

/-- Read exactly `k` decimal digits. -/
def readDigits (k : Nat) (cs : List Char) : Option (Nat × List Char) :=
  let ds := cs.take k
  if ds.length = k ∧ ds.all isDecDigit then some (decVal ds, cs.drop k) else none

/-- Expect one literal character. -/
def expectChar (c : Char) (cs : List Char) : Option (List Char) :=
  match cs with
  | c' :: tl => if c' = c then some tl else none
  | [] => none

/-- Fraction step of the strict parser: optional `.digits` after seconds. -/
def parseFrac (cs : List Char) : Option (Nat × List Char) :=
  match cs with
  | '.' :: tl =>
    let ds := tl.takeWhile isDecDigit
    if ds.length = 0 then none
    else if ds.length ≤ 9 then
      some (decVal ds * 10 ^ (9 - ds.length), tl.dropWhile isDecDigit)
    else none
  | _ => some (0, cs)

/-- Zone step of the strict parser: `Z` or `±hh:mm`, consuming the whole
rest of the input. -/
def parseZone (cs : List Char) : Option Int :=
  match cs with
  | c :: zr =>
    if c = 'Z' ∧ zr = [] then some 0
    else if c = '+' ∨ c = '-' then
      match readDigits 2 zr with
      | none => none
      | some (zh, zr1) =>
        match expectChar ':' zr1 with
        | none => none
        | some zr2 =>
          match readDigits 2 zr2 with
          | none => none
          | some (zm, zr3) =>
            if zr3 = [] ∧ zh ≤ 23 ∧ zm ≤ 59 then
              some (if c = '-' then -((zh * 60 + zm : Nat) : Int)
                    else ((zh * 60 + zm : Nat) : Int))
            else none
    else none
  | [] => none

/-- One `NNc` step (fixed-width number then a literal separator). -/
def readNumSep (k : Nat) (sep : Char) (cs : List Char) : Option (Nat × List Char) :=
  match readDigits k cs with
  | none => none
  | some (n, r) =>
    match expectChar sep r with
    | none => none
    | some r2 => some (n, r2)

/-- `time.Parse(time.RFC3339, s)` (the strict RFC-3339 parser):
`YYYY-MM-DDThh:mm:ss`, optional `.fraction`, then `Z` or `±hh:mm`,
with range validation of every field. -/
def rfc3339Parse (cs : List Char) : Option GoTime :=
  match readNumSep 4 '-' cs with
  | none => none
  | some (y, r1) =>
  match readNumSep 2 '-' r1 with
  | none => none
  | some (mo, r2) =>
  match readNumSep 2 'T' r2 with
  | none => none
  | some (d, r3) =>
  match readNumSep 2 ':' r3 with
  | none => none
  | some (h, r4) =>
  match readNumSep 2 ':' r4 with
  | none => none
  | some (mi, r5) =>
  match readDigits 2 r5 with
  | none => none
  | some (sec, r6) =>
  match parseFrac r6 with
  | none => none
  | some (ns, r7) =>
  match parseZone r7 with
  | none => none
  | some offs =>
    let t : GoTime := ⟨y, mo, d, h, mi, sec, ns, offs⟩
    if goTimeValid t then some t else none

/-! ## net.IP, net.IPMask, net.IPNet -/

/-- The 12-byte prefix marking an IPv4 address inside a 16-byte IP. -/
def v4InV6Marker : List Nat := [0, 0, 0, 0, 0, 0, 0, 0, 0, 0, 255, 255]

/-- `net.IP.To4`. -/
def ipTo4 (bs : List Nat) : Option (List Nat) :=
  if bs.length = 4 then some bs
  else if bs.length = 16 ∧ bs.take 12 = v4InV6Marker then some (bs.drop 12)
  else none

/-- A lowercase hex digit character. -/
def hexDigitChar (d : Nat) : Char :=
  if d < 10 then decDigitChar d else Char.ofNat (87 + d)

/-- Lowercase hex of a 16-bit group without leading zeros (`appendHex`). -/
def formatHexGroup (g : Nat) : List Char :=
  if g = 0 then ['0'] else (digitsRev 16 g g).reverse.map hexDigitChar

/-- Two lowercase hex digits per byte (the `hexString` helper of package
`net`, also `net.IPMask.String`). -/
def hexPairs (bs : List Nat) : List Char :=
  bs.flatMap (fun b => [hexDigitChar (b / 16 % 16), hexDigitChar (b % 16)])

/-- 16-bit groups of a 16-byte IPv6 address. -/
def ipGroups (bs : List Nat) : List Nat :=
  match bs with
  | b0 :: b1 :: tl => (b0 * 256 + b1) :: ipGroups tl
  | _ => []

/-- The first longest run (start, length) of zero groups, when it has at
least two groups: the `e0`/`e1` scan of `net.IP.String`. -/
def bestZeroRun (gs : List Nat) : Option (Nat × Nat) :=
  let runLen := fun i => ((gs.drop i).takeWhile (fun g => g = 0)).length
  let best := (List.range gs.length).foldl
    (fun acc i => if runLen i > acc.2 then (i, runLen i) else acc) (0, 0)
  if best.2 ≥ 2 then some best else none

/-- IPv6 text with the longest zero run elided (`net.IP.String`, 16-byte
non-IPv4 case, RFC 5952 form). -/
def ipv6String (bs : List Nat) : List Char :=
  let gs := ipGroups bs
  match bestZeroRun gs with
  | none => List.intercalate [':'] (gs.map formatHexGroup)
  | some (s, l) =>
    List.intercalate [':'] ((gs.take s).map formatHexGroup) ++ ':' :: ':' ::
      List.intercalate [':'] ((gs.drop (s + l)).map formatHexGroup)

/-- `net.IP.String`. -/
def goIPString (bs : List Nat) : List Char :=
  if bs = [] then ['<', 'n', 'i', 'l', '>']
  else
    match ipTo4 bs with
    | some q =>
      match q with
      | [a, b, c, d] =>
        formatNat a ++ '.' :: formatNat b ++ '.' :: formatNat c ++ '.' :: formatNat d
      | _ => []
    | none =>
      if bs.length ≠ 16 then '?' :: hexPairs bs else ipv6String bs

/-- One field of the dotted-quad IPv4 grammar: 1-3 decimal digits, no
leading zero, value at most 255. -/
def parseV4Field (cs : List Char) : Option (Nat × List Char) :=
  let ds := cs.takeWhile isDecDigit
  let rest := cs.dropWhile isDecDigit
  if ds = [] then none
  else if 1 < ds.length ∧ ds.headI = '0' then none
  else if 3 < ds.length then none
  else if 255 < decVal ds then none
  else some (decVal ds, rest)

/-- IPv4 parse (`parseIPv4` behind `net.ParseIP`): exactly four fields,
whole input consumed; the four address bytes. -/
def goParseIPv4 (cs : List Char) : Option (List Nat) :=
  match parseV4Field cs with
  | none => none
  | some (a, r1) =>
  match expectChar '.' r1 with
  | none => none
  | some r2 =>
  match parseV4Field r2 with
  | none => none
  | some (b, r3) =>
  match expectChar '.' r3 with
  | none => none
  | some r4 =>
  match parseV4Field r4 with
  | none => none
  | some (c, r5) =>
  match expectChar '.' r5 with
  | none => none
  | some r6 =>
  match parseV4Field r6 with
  | none => none
  | some (d, r7) => if r7 = [] then some [a, b, c, d] else none

/-- Hex digit test of the IPv6 parser (both cases accepted). -/
def isHexDigit (c : Char) : Bool :=
  isDecDigit c || (97 ≤ c.toNat && c.toNat ≤ 102) || (65 ≤ c.toNat && c.toNat ≤ 70)

/-- Value of one hex digit character. -/
def hexCharVal (c : Char) : Nat :=
  if isDecDigit c then c.toNat - 48
  else if 97 ≤ c.toNat then c.toNat - 87
  else c.toNat - 55

/-- Value of a hex digit string (most significant first). -/
def hexVal (cs : List Char) : Nat := cs.foldl (fun a c => a * 16 + hexCharVal c) 0

/-- One hex field of the IPv6 parser: consume hex digits, reject a group
value above `0xFFFF`; `(value, digit count, rest)`. -/
def parseV6Hex (cs : List Char) : Option (Nat × Nat × List Char) :=
  let ds := cs.takeWhile isHexDigit
  let rest := cs.dropWhile isHexDigit
  if 65535 < hexVal ds then none else some (hexVal ds, ds.length, rest)

/-- The field loop of the IPv6 parser: accumulate address bytes and an
optional ellipsis position until 16 bytes, end of input, a trailing `::`,
or an embedded dotted IPv4 tail; `(bytes, ellipsis, rest)`. -/
def parseV6Loop (fuel : Nat) (s : List Char) (acc : List Nat) (ell : Option Nat) :
    Option (List Nat × Option Nat × List Char) :=
  match fuel with
  | 0 => none
  | fuel + 1 =>
    if 16 ≤ acc.length then some (acc, ell, s)
    else
      match parseV6Hex s with
      | none => none
      | some (v, off, rest) =>
        if off = 0 then none
        else
          match rest with
          | [] => some (acc ++ [v / 256, v % 256], ell, [])
          | c :: rtl =>
            if c = '.' then
              if (ell.isNone ∧ acc.length ≠ 12) ∨ 16 < acc.length + 4 then none
              else
                match goParseIPv4 s with
                | none => none
                | some q => some (acc ++ q, ell, [])
            else
              let acc2 := acc ++ [v / 256, v % 256]
              if c = ':' then
                if rtl = [] then none
                else
                  match rtl with
                  | c2 :: rtl2 =>
                    if c2 = ':' then
                      if ell.isSome then none
                      else if rtl2 = [] then some (acc2, some acc2.length, [])
                      else parseV6Loop fuel rtl2 acc2 (some acc2.length)
                    else parseV6Loop fuel (c2 :: rtl2) acc2 ell
                  | [] => none
              else none

/-- IPv6 parse (`parseIPv6` behind `net.ParseIP`): 16 address bytes. -/
def goParseIPv6 (cs : List Char) : Option (List Nat) :=
  match cs with
  | [] => goParseIPv6Tail [] none
  | c1 :: tl1 =>
    if c1 = ':' then
      match tl1 with
      | c2 :: tl =>
        if c2 = ':' then
          if tl = [] then some (List.replicate 16 0)
          else goParseIPv6Tail tl (some 0)
        else goParseIPv6Tail (c1 :: c2 :: tl) none
      | [] => goParseIPv6Tail (c1 :: []) none
    else goParseIPv6Tail (c1 :: tl1) none
where
  goParseIPv6Tail (s0 : List Char) (ell0 : Option Nat) : Option (List Nat) :=
    match parseV6Loop 9 s0 [] ell0 with
    | none => none
    | some (bytes, ell, rest) =>
      if rest ≠ [] then none
      else if bytes.length < 16 then
        match ell with
        | none => none
        | some e => some (bytes.take e ++ List.replicate (16 - bytes.length) 0 ++ bytes.drop e)
      else
        match ell with
        | none => some bytes
        | some _ => none

/-- `net.ParseIP`: the first `.` or `:` selects the family; a dotted quad
comes back in 16-byte IPv4-in-IPv6 form. -/
def goParseIP (cs : List Char) : Option (List Nat) :=
  match cs.find? (fun c => c = '.' ∨ c = ':') with
  | some '.' => (goParseIPv4 cs).map (fun q => v4InV6Marker ++ q)
  | some ':' => goParseIPv6 cs
  | _ => none

/-- `net.CIDRMask(ones, bits)` as a byte list. -/
def cidrMask (ones bits : Nat) : List Nat :=
  (List.range (bits / 8)).map (fun i =>
    let rem := if (i + 1) * 8 ≤ ones then 8 else if i * 8 ≤ ones then ones - i * 8 else 0
    256 - 2 ^ (8 - rem))

/-- Leading-ones count of one mask byte when it is of the form
`1...10...0`. -/
def leadingOnesByte (b : Nat) : Option Nat :=
  if b = 255 then some 8 else if b = 254 then some 7 else if b = 252 then some 6
  else if b = 248 then some 5 else if b = 240 then some 4 else if b = 224 then some 3
  else if b = 192 then some 2 else if b = 128 then some 1 else if b = 0 then some 0
  else none

/-- `simpleMaskLength` of package `net` (`none` for a non-CIDR mask). -/
def simpleMaskLength : List Nat → Option Nat
  | [] => some 0
  | b :: tl =>
    if b = 255 then (simpleMaskLength tl).map (fun n => 8 + n)
    else
      match leadingOnesByte b with
      | none => none
      | some k => if tl.all (fun x => x = 0) then some k else none

/-- `net.IPMask.String`: hex pairs, `<nil>` when empty. -/
def goIPMaskString (bs : List Nat) : List Char :=
  if bs = [] then ['<', 'n', 'i', 'l', '>'] else hexPairs bs

/-- `net.IPNet.String` for a non-nil network. -/
def goIPNetString (ip mask : List Nat) : List Char :=
  let nn := goIPString ip
  match simpleMaskLength mask with
  | some l =>
    if nn = ['<', 'n', 'i', 'l', '>'] then nn ++ '/' :: goIPMaskString mask
    else nn ++ '/' :: formatNat l
  | none => nn ++ '/' :: goIPMaskString mask

/-- Bytewise AND of an address with a mask (`net.IP.Mask` with matching
lengths). -/
def maskBytes (ip mask : List Nat) : List Nat := List.zipWith (fun a b => a &&& b) ip mask

/-- `net.ParseCIDR`: split at the first `/`, parse the address (a dotted
quad yields a 4-byte address), parse the decimal prefix length, and return
the masked network address with its mask. -/
def goParseCIDR (cs : List Char) : Option (List Nat × List Nat) :=
  let addr := cs.takeWhile (fun c => c ≠ '/')
  let rest := cs.dropWhile (fun c => c ≠ '/')
  match rest with
  | sl :: maskStr =>
    if ¬sl = '/' then none else
    let onesOk := fun (bits : Nat) =>
      maskStr ≠ [] ∧ maskStr.all isDecDigit ∧ decVal maskStr ≤ bits
    match addr.find? (fun c => c = '.' ∨ c = ':') with
    | some '.' =>
      match goParseIPv4 addr with
      | none => none
      | some q =>
        if onesOk 32 then
          let m := cidrMask (decVal maskStr) 32
          some (maskBytes q m, m)
        else none
    | some ':' =>
      match goParseIPv6 addr with
      | none => none
      | some b =>
        if onesOk 128 then
          let m := cidrMask (decVal maskStr) 128
          some (maskBytes b m, m)
        else none
    | _ => none
  | [] => none

/-! ## The value model

One constructor per declared field type the codec distinguishes.  Integer
fields of every width share `tInt`/`tUint` (`reflect.Value.SetInt`
truncates, and both `Int()` and `ParseInt` work in 64 bits, so widths do
not change the codec's behaviour on in-range values).  A `[]byte` field is
its own type: the codec's type switch catches it before the generic slice
kind.  Byte slices from strings are modelled as code points (exact for
ASCII). -/

inductive GoType
  | tBool | tInt | tUint | tString
  | tDuration | tTime | tIP | tIPMask | tIPNet | tBytes
  | tSlice (elem : GoType)
deriving DecidableEq

inductive GoValue
  | vBool (b : Bool)
  | vInt (i : Int)
  | vUint (n : Nat)
  | vString (s : List Char)
  | vDuration (ns : Int)
  | vTime (t : GoTime)
  | vIP (bs : List Nat)
  | vIPMask (bs : List Nat)
  | vIPNetNil
  | vIPNet (ip : List Nat) (mask : List Nat)
  | vBytes (bs : List Nat)
  | vSlice (elems : List GoValue)

mutual

def wellTyped : GoValue → GoType → Bool
  | .vBool _, .tBool => true
  | .vInt i, .tInt => -(2 ^ 63) ≤ i && i < 2 ^ 63
  | .vUint n, .tUint => n < 2 ^ 64
  | .vString _, .tString => true
  | .vDuration d, .tDuration => -(2 ^ 63) ≤ d && d < 2 ^ 63
  | .vTime t, .tTime => goTimeValid t
  | .vIP bs, .tIP => bs.all (fun b => b < 256)
  | .vIPMask bs, .tIPMask => bs.all (fun b => b < 256)
  | .vIPNetNil, .tIPNet => true
  | .vIPNet ip mask, .tIPNet => ip.all (fun b => b < 256) && mask.all (fun b => b < 256)
  | .vBytes bs, .tBytes => bs.all (fun b => b < 256)
  | .vSlice es, .tSlice t => wellTypedList es t
  | _, _ => false

def wellTypedList : List GoValue → GoType → Bool
  | [], _ => true
  | v :: vs, t => wellTyped v t && wellTypedList vs t

end

/-- The zero value of each type (`reflect.New(t).Elem()`). -/
def zeroValue : GoType → GoValue
  | .tBool => .vBool false
  | .tInt => .vInt 0
  | .tUint => .vUint 0
  | .tString => .vString []
  | .tDuration => .vDuration 0
  | .tTime => .vTime goTimeZero
  | .tIP => .vIP []
  | .tIPMask => .vIPMask []
  | .tIPNet => .vIPNetNil
  | .tBytes => .vBytes []
  | .tSlice _ => .vSlice []

/-- `reflect.Value.IsZero` (nil and empty slices are conflated). -/
def goIsZero : GoValue → Bool
  | .vBool b => !b
  | .vInt i => i = 0
  | .vUint n => n = 0
  | .vString s => s = []
  | .vDuration d => d = 0
  | .vTime t => t = goTimeZero
  | .vIP bs => bs = []
  | .vIPMask bs => bs = []
  | .vIPNetNil => true
  | .vIPNet _ _ => false
  | .vBytes bs => bs = []
  | .vSlice es => es.isEmpty

/-- `FieldItem.String` (struct.go): empty for a zero value, then the type
switch (Duration, Time, IP, IPMask, *IPNet), then the kind switch; kinds
without a case (slices among them) yield the empty string. -/
def fieldItemString (v : GoValue) : List Char :=
  if goIsZero v then []
  else
    match v with
    | .vDuration d => durationString d
    | .vTime t => rfc3339Format t
    | .vIP bs => if bs.length = 0 then [] else goIPString bs
    | .vIPMask bs => if bs.length = 0 then [] else goIPMaskString bs
    | .vIPNet ip mask => goIPNetString ip mask
    | .vIPNetNil => []
    | .vInt i => goFormatInt i
    | .vUint n => goFormatUint n
    | .vString s => s
    | .vBool _ => ['t', 'r', 'u', 'e']
    | .vBytes _ => []
    | .vSlice _ => []

/-- `strconv.ParseBool`. -/
def goParseBool (cs : List Char) : Option Bool :=
  if cs = ['1'] ∨ cs = ['t'] ∨ cs = ['T'] ∨ cs = ['t', 'r', 'u', 'e'] ∨
     cs = ['T', 'R', 'U', 'E'] ∨ cs = ['T', 'r', 'u', 'e'] then some true
  else if cs = ['0'] ∨ cs = ['f'] ∨ cs = ['F'] ∨ cs = ['f', 'a', 'l', 's', 'e'] ∨
     cs = ['F', 'A', 'L', 'S', 'E'] ∨ cs = ['F', 'a', 'l', 's', 'e'] then some false
  else none

/-- Errors the codec can return. -/
inductive GoError
  | errParseInt
  | errParseUint
  | errParseBool
  | errParseDuration
  | errParseTime
  | recovered (msg : List Char)
deriving DecidableEq

/-- Result of the body of a setter: an ordinary return carrying the (new)
field value and an optional error, or a panic carrying the value at the
time of the panic. -/
inductive SetBody
  | ret (v : GoValue) (err : Option GoError)
  | panicked (v : GoValue) (msg : List Char)

/-- The reflect panic message for mutation through an unaddressable value. -/
def unaddressableMsg : List Char :=
  ['u', 'n', 'a', 'd', 'd', 'r', 'e', 's', 's', 'a', 'b', 'l', 'e']

/-- The reflect panic message for `Set` with a value of the wrong dynamic
type (the CIDR branch stores `reflect.ValueOf(ni)` where `ni` is the
`error` returned by `net.ParseCIDR`, never assignable to the field). -/
def notAssignableMsg : List Char :=
  ['n', 'o', 't', ' ', 'a', 's', 's', 'i', 'g', 'n', 'a', 'b', 'l', 'e']

/-- A `reflect.Value.Set*` call: stores when the value is settable, panics
otherwise. -/
def assign (settable : Bool) (old new : GoValue) : SetBody :=
  if settable then .ret new none else .panicked old unaddressableMsg

/-- Body of `FieldItem.Set` (struct.go, inside the defer/recover): the
empty-input guard, then the type switch, then the kind switch.  There is
no slice case in this variant, so slice fields fall through untouched. -/
def fieldItemSetBody (t : GoType) (settable : Bool) (v : GoValue) (s : List Char) : SetBody :=
  if s = [] ∧ ¬t = .tBool then .ret v none
  else
    match t with
    | .tDuration =>
      match goParseDuration s with
      | none => .ret v (some .errParseDuration)
      | some d => assign settable v (.vDuration d)
    | .tTime =>
      match rfc3339Parse s with
      | none => .ret v (some .errParseTime)
      | some tt => assign settable v (.vTime tt)
    | .tIP =>
      match goParseIP s with
      | none => .ret v none
      | some bs => assign settable v (.vIP bs)
    | .tIPMask =>
      match goParseIP s with
      | none => .ret v none
      | some bs => assign settable v (.vIPMask bs)
    | .tIPNet =>
      -- `if _, _, ni := net.ParseCIDR(s); ni != nil { fv.Value.Set(reflect.ValueOf(ni)) }`:
      -- `ni` is the error, so a valid CIDR is a silent no-op and a malformed
      -- one stores the error value, which makes `reflect.Value.Set` panic.
      match goParseCIDR s with
      | some _ => .ret v none
      | none => .panicked v (if settable then notAssignableMsg else unaddressableMsg)
    | .tBytes => assign settable v (.vBytes (s.map Char.toNat))
    | .tInt =>
      match goParseInt64 s with
      | none => .ret v (some .errParseInt)
      | some i => assign settable v (.vInt i)
    | .tUint =>
      match goParseUint64 s with
      | none => .ret v (some .errParseUint)
      | some n => assign settable v (.vUint n)
    | .tString => assign settable v (.vString s)
    | .tBool =>
      if s = [] then assign settable v (.vBool true)
      else
        match goParseBool s with
        | none => .ret v (some .errParseBool)
        | some b => assign settable v (.vBool b)
    | .tSlice _ => .ret v none

/-- `FieldItem.Set`: the body wrapped in the deferred recover, which turns
a panic into an ordinary error return. -/
def fieldItemSet (t : GoType) (settable : Bool) (v : GoValue) (s : List Char) :
    GoValue × Option GoError :=
  match fieldItemSetBody t settable v s with
  | .ret v e => (v, e)
  | .panicked v m => (v, some (.recovered m))

/-- Observable outcome of calling a Go function: a normal return, or a
panic that escaped to the caller. -/
inductive GoCall
  | normal (v : GoValue) (err : Option GoError)
  | fatal (msg : List Char)

/-- Calling `FieldItem.Set` as written (with its deferred recover). -/
def fieldItemSetCall (t : GoType) (settable : Bool) (v : GoValue) (s : List Char) : GoCall :=
  match fieldItemSetBody t settable v s with
  | .ret v e => .normal v e
  | .panicked v m => .normal v (some (.recovered m))

/-- Calling the same body without the deferred recover: a panic escapes. -/
def fieldItemSetNoRecover (t : GoType) (settable : Bool) (v : GoValue) (s : List Char) : GoCall :=
  match fieldItemSetBody t settable v s with
  | .ret v e => .normal v e
  | .panicked _ m => .fatal m

/-- Body of `reflectSet` (flags.go): the `CanSet` guard, the empty-input
guard against the static type's kind, the same scalar cases, and the
slice case, which parses one fresh element with a recursive `reflectSet`
call (itself recovered) and appends it. -/
def reflectSetBody (t : GoType) (canSet : Bool) (v : GoValue) (s : List Char) : SetBody :=
  if ¬canSet then .ret v none
  else if s = [] ∧ ¬t = .tBool then .ret v none
  else
    match t with
    | .tDuration =>
      match goParseDuration s with
      | none => .ret v (some .errParseDuration)
      | some d => assign canSet v (.vDuration d)
    | .tTime =>
      match rfc3339Parse s with
      | none => .ret v (some .errParseTime)
      | some tt => assign canSet v (.vTime tt)
    | .tIP =>
      match goParseIP s with
      | none => .ret v none
      | some bs => assign canSet v (.vIP bs)
    | .tIPMask =>
      match goParseIP s with
      | none => .ret v none
      | some bs => assign canSet v (.vIPMask bs)
    | .tIPNet =>
      -- same inverted CIDR branch as `FieldItem.Set`; it runs only behind the
      -- `CanSet` guard, so the malformed-input panic is the assignability one.
      match goParseCIDR s with
      | some _ => .ret v none
      | none => .panicked v notAssignableMsg
    | .tBytes => assign canSet v (.vBytes (s.map Char.toNat))
    | .tInt =>
      match goParseInt64 s with
      | none => .ret v (some .errParseInt)
      | some i => assign canSet v (.vInt i)
    | .tUint =>
      match goParseUint64 s with
      | none => .ret v (some .errParseUint)
      | some n => assign canSet v (.vUint n)
    | .tString => assign canSet v (.vString s)
    | .tBool =>
      if s = [] then assign canSet v (.vBool true)
      else
        match goParseBool s with
        | none => .ret v (some .errParseBool)
        | some b => assign canSet v (.vBool b)
    | .tSlice et =>
      match reflectSetBody et true (zeroValue et) s with
      | .ret ev none =>
        match v with
        | .vSlice es => .ret (.vSlice (es ++ [ev])) none
        | _ => .panicked v ['a', 'p', 'p', 'e', 'n', 'd']
      | .ret _ (some e) => .ret v (some e)
      | .panicked _ m => .ret v (some (.recovered m))

/-- `reflectSet`: the body wrapped in its deferred recover. -/
def reflectSet (t : GoType) (canSet : Bool) (v : GoValue) (s : List Char) :
    GoValue × Option GoError :=
  match reflectSetBody t canSet v s with
  | .ret v e => (v, e)
  | .panicked v m => (v, some (.recovered m))

/-! ## Tag helpers and name derivation (struct.go, snakecase.go) -/

/-- ASCII uppercase letter (`unicode.IsUpper` restricted to the ASCII
identifiers this library sees). -/
def goIsUpper (c : Char) : Bool := 65 ≤ c.toNat && c.toNat ≤ 90

/-- ASCII lowercase letter. -/
def goIsLower (c : Char) : Bool := 97 ≤ c.toNat && c.toNat ≤ 122

/-- ASCII lowering. -/
def goToLower (c : Char) : Char := if goIsUpper c then Char.ofNat (c.toNat + 32) else c

/-- ASCII raising (`strings.ToUpper` on the names in play). -/
def goToUpper (c : Char) : Char := if goIsLower c then Char.ofNat (c.toNat - 32) else c

/-- `Snakecase` (snakecase.go): lower every uppercase rune, inserting `-`
before it when it follows a non-dash and has a lowercase neighbour. -/
def snakecase (s : List Char) : List Char :=
  (List.range s.length).flatMap (fun i =>
    let r := s.getD i ' '
    if goIsUpper r then
      let dash := 0 < i ∧ s.getD (i - 1) ' ' ≠ '-' ∧
        (goIsLower (s.getD (i - 1) ' ') ∨ (i + 1 < s.length ∧ goIsLower (s.getD (i + 1) ' ')))
      (if dash then ['-'] else []) ++ [goToLower r]
    else [r])

/-- `unicode.IsSpace` on the ASCII range (`strings.TrimSpace`). -/
def goIsSpace (c : Char) : Bool :=
  c = ' ' ∨ c = '\t' ∨ c = '\n' ∨ c = '\x0b' ∨ c = '\x0c' ∨ c = '\r'

/-- `strings.TrimSpace`. -/
def trimSpace (cs : List Char) : List Char :=
  ((cs.dropWhile goIsSpace).reverse.dropWhile goIsSpace).reverse

/-- `fieldTag`: the raw tag value trimmed. -/
def fieldTag (raw : List Char) : List Char := trimSpace raw

/-- `-` to `_` replacement of `jEnvKey`. -/
def replaceDash (cs : List Char) : List Char :=
  cs.map (fun c => if c = '-' then '_' else c)

/-- `jEnvKey` (struct.go): empty key drops the prefix; otherwise the
prefix is prepended and every `-` of the result becomes `_`. -/
def jEnvKey (key envPfx : List Char) : List Char :=
  if key = [] then [] else replaceDash (envPfx ++ key)

/-- The delimiter class of `fieldsSplitRe` (`[\s,;|]+`; `\s` in Go regexp
is `[\t\n\f\r ]`). -/
def isSplitChar (c : Char) : Bool :=
  c = ' ' ∨ c = '\t' ∨ c = '\n' ∨ c = '\x0c' ∨ c = '\r' ∨ c = ',' ∨ c = ';' ∨ c = '|'

/-- `fieldsSplit`: regex split on delimiter runs with empty pieces
dropped. -/
def fieldsSplit (cs : List Char) : List (List Char) :=
  (cs.splitOnP isSplitChar).filter (fun p => p ≠ [])

/-- `fieldName` (struct.go): unexported fields map to `-`; an empty
(trimmed) `flag` tag falls back to `Snakecase` of the identifier; a
configured name prefix is prepended unless the name is `-`; spaces are
removed. -/
def fieldName (exported : Bool) (flagTagRaw : List Char) (goName : List Char)
    (pfx : List Char) : List Char :=
  if ¬exported then ['-']
  else
    let n0 := fieldTag flagTagRaw
    let n1 := if n0 = [] then snakecase goName else n0
    let n2 := if pfx ≠ [] ∧ n1 ≠ ['-'] then pfx ++ n1 else n1
    n2.filter (fun c => c ≠ ' ')

/-! ## The binder (`ParseStruct`, struct.go)

The environment is a total function from key to value, `[]` meaning unset
(`os.Getenv`).  The engine's argument pass is the fold of `FieldItem.Set`
over the values supplied for any of the field's registered names, aborting
on the first error, exactly the contract of `flag.FlagSet.Parse` towards a
registered `flag.Value`. -/

structure StructField where
  goName : List Char
  exported : Bool
  flagTag : List Char
  usageTag : List Char
  envTag : List Char
  shortTag : List Char
  aliasTag : List Char
  typ : GoType
  init : GoValue

structure FieldItemM where
  name : List Char
  aliases : List (List Char)
  short : List Char
  usage : List Char
  envKey : List Char
  value : GoValue

/-- Result of the per-field registration step of `ParseStruct` (the loop
body before `set.Parse` runs). -/
inductive BindResult
  | skipped
  | bound (item : FieldItemM)
  | failed (v : GoValue) (e : GoError)

/-- The `,file` suffix marking a config-file path field. -/
def fileSuffix : List Char := [',', 'f', 'i', 'l', 'e']

/-- One iteration of the field loop of `ParseStruct`: derive the name,
skip on `-`, strip a `,file` suffix on string fields, resolve the
environment key (an `env` tag of exactly `-` disables it, an empty tag
derives the key from the uppercased name), eagerly apply a non-empty
environment value through `FieldItem.Set` (its error aborts the bind), and
collect alias/short/usage tags. -/
def boundFlagName (pfx : List Char) (f : StructField) : List Char :=
  let name := fieldName f.exported f.flagTag f.goName pfx
  if fileSuffix.isSuffixOf name ∧ f.typ = .tString then name.take (name.length - 5)
  else name

def processField (envf : List Char → List Char) (pfx envPfx : List Char)
    (f : StructField) : BindResult :=
  if fieldName f.exported f.flagTag f.goName pfx = ['-'] then .skipped
  else
    let name := boundFlagName pfx f
    let rawEnv := f.envTag
    let mkItem := fun (key : List Char) (v : GoValue) =>
      FieldItemM.mk name (fieldsSplit (fieldTag f.aliasTag)) (fieldTag f.shortTag)
        (fieldTag f.usageTag) key v
    if rawEnv ≠ ['-'] then
      let envKey := if rawEnv = [] then jEnvKey (name.map goToUpper) envPfx
                    else jEnvKey rawEnv envPfx
      let ev := envf envKey
      if ev ≠ [] then
        match fieldItemSet f.typ true f.init ev with
        | (v, some e) => .failed v e
        | (v, none) => .bound (mkItem envKey v)
      else .bound (mkItem envKey f.init)
    else .bound (mkItem [] f.init)

/-- The names `ParseStruct` registers with the flag engine for one bound
field: canonical name, every alias, and the shorthand when present. -/
def registeredNames (it : FieldItemM) : List (List Char) :=
  it.name :: it.aliases ++ (if it.short = [] then [] else [it.short])

/-- The engine's argument pass for one field: fold `FieldItem.Set` over
the supplied values, stopping at the first error. -/
def applyArgs (t : GoType) (v : GoValue) (vals : List (List Char)) :
    GoValue × Option GoError :=
  match vals with
  | [] => (v, none)
  | s :: tl =>
    match fieldItemSet t true v s with
    | (v1, none) => applyArgs t v1 tl
    | (v1, some e) => (v1, some e)

/-- The values the command line supplies for one field, in order: the
pairs whose flag name is one of the field's registered names. -/
def argsFor (it : FieldItemM) (args : List (List Char × List Char)) : List (List Char) :=
  (args.filter (fun p => (registeredNames it).contains p.1)).map (fun p => p.2)

/-- The final value of one bound field after `ParseStruct`: the eager
environment step, then the engine's argument pass over it. -/
def fieldFinal (envf : List Char → List Char) (pfx envPfx : List Char)
    (f : StructField) (args : List (List Char × List Char)) : GoValue × Option GoError :=
  match processField envf pfx envPfx f with
  | .skipped => (f.init, none)
  | .failed v e => (v, some e)
  | .bound it => applyArgs f.typ it.value (argsFor it args)

/-- The registration loop of `ParseStruct` over all fields: the bound
items in order (these are `flagItems`, the source of both registrations
and the generated help list), stopping with an error when an environment
value fails to parse. -/
def parseStructLoop (envf : List Char → List Char) (pfx envPfx : List Char) :
    List StructField → List FieldItemM × Option GoError
  | [] => ([], none)
  | f :: tl =>
    match processField envf pfx envPfx f with
    | .skipped => parseStructLoop envf pfx envPfx tl
    | .failed _ e => ([], some e)
    | .bound it =>
      match parseStructLoop envf pfx envPfx tl with
      | (its, e) => (it :: its, e)

/-! ## Deprecation marker (pflag.go `AddToSet` with `reDeprecated`)

`reDeprecated` matches, in Go leftmost-first semantics with no multiline
flag, optional whitespace, the literal marker, optional whitespace, and a
dot-star capture anchored at the end of the text (`.` does not cross a
newline, `\s` in Go regexp is the ASCII class). -/

def markerChars : List Char :=
  ['*', '*', 'D', 'E', 'P', 'R', 'E', 'C', 'A', 'T', 'E', 'D', '*', '*']

/-- The `\s` class of Go regexp. -/
def isRegexSpace (c : Char) : Bool :=
  c = ' ' ∨ c = '\t' ∨ c = '\n' ∨ c = '\x0c' ∨ c = '\r'

/-- `reDeprecated.FindStringSubmatch`: the start index of the whole match
and the captured tail.  A marker occurrence matches when everything after
it, past leading whitespace, is free of newlines; the whole match then
extends left over the contiguous whitespace run before the marker and
right to the end of the text. -/
def findDeprecated (cs : List Char) : Option (Nat × List Char) :=
  let okAt := fun (p : Nat) =>
    markerChars.isPrefixOf (cs.drop p) &&
      ((cs.drop (p + 14)).dropWhile isRegexSpace).all (fun c => c ≠ '\n')
  match (List.range (cs.length + 1)).find? okAt with
  | none => none
  | some p =>
    let wsLen := ((cs.take p).reverse.takeWhile isRegexSpace).length
    some (p - wsLen, (cs.drop (p + 14)).dropWhile isRegexSpace)

/-- The deprecation step of `AddToSet` (pflag.go): when the regex matches,
the displayed usage keeps only the text before the match, and the captured
tail becomes the deprecation reason, the literal `deprecated` when the
tail is empty. -/
def applyDeprecation (usage : List Char) : List Char × Option (List Char) :=
  match findDeprecated usage with
  | none => (usage, none)
  | some (start, tail) =>
    (usage.take start,
     some (if tail = [] then ['d', 'e', 'p', 'r', 'e', 'c', 'a', 't', 'e', 'd'] else tail))

/-! ## Config-file loading (`getCotentType`, `configFileValue.Set`)

The file system and the four decoders are collaborators: `read` models
`os.ReadFile` (with a distinguished not-exist error), `decode` models the
selected unmarshal step. -/

/-- `filepath.Ext`: the suffix beginning at the final dot of the last path
element. -/
def goExt (cs : List Char) : List Char :=
  let tailNoSep := cs.reverse.takeWhile (fun c => c ≠ '/')
  let upToDot := tailNoSep.takeWhile (fun c => c ≠ '.')
  if upToDot.length = tailNoSep.length then []
  else '.' :: upToDot.reverse

/-- `strings.Cut` at the first occurrence of a separator character. -/
def strCut (cs : List Char) (sep : Char) : Option (List Char × List Char) :=
  let before := cs.takeWhile (fun c => c ≠ sep)
  if before.length = cs.length then none
  else some (before, cs.drop (before.length + 1))

def ctJson : List Char := ['j', 's', 'o', 'n']
def ctYaml : List Char := ['y', 'a', 'm', 'l']
def ctToml : List Char := ['t', 'o', 'm', 'l']
def ctIni : List Char := ['i', 'n', 'i']

/-- `getCotentType`: an explicit `type:path` prefix (anything before the
first colon) is returned as the content type as-is; otherwise the file
extension decides, with the `jsonc`/`yml`/`tml` spellings normalised. -/
def getCotentType (s : List Char) : List Char × List Char :=
  if s = [] then ([], [])
  else
    match strCut s ':' with
    | some (ct, path) => (ct, path)
    | none =>
      let ct0 :=
        match goExt s with
        | [] => []
        | _ :: tl => tl
      let ct :=
        if ct0 = ['j', 's', 'o', 'n', 'c'] then ctJson
        else if ct0 = ['y', 'm', 'l'] then ctYaml
        else if ct0 = ['t', 'm', 'l'] then ctToml
        else ct0
      (ct, s)

inductive FileErr
  | notExist
  | other
deriving DecidableEq

/-- The external collaborators of `configFileValue.Set`: the file system
and the per-content-type unmarshal step (`true` means it succeeded). -/
structure ConfigWorld where
  read : List Char → Except FileErr (List Nat)
  decode : List Char → List Nat → Bool

inductive CfgErr
  | unsupported (s : List Char)
  | readFail
  | decodeFail
deriving DecidableEq

/-- `configFileValue.Set`: store the path; on a non-empty path select the
content type, dispatch to the matching decoder or fail with the
unsupported-type error, and downgrade a not-exist read error to success. -/
def configFileValueSet (w : ConfigWorld) (s : List Char) : List Char × Option CfgErr :=
  if s = [] then (s, none)
  else
    let (ct, path) := getCotentType s
    let err :=
      if ct = ctJson ∨ ct = ctYaml ∨ ct = ctToml ∨ ct = ctIni then
        if path = [] then none
        else
          match w.read path with
          | .error .notExist => none
          | .error .other => some CfgErr.readFail
          | .ok data => if w.decode ct data then none else some CfgErr.decodeFail
      else some (CfgErr.unsupported s)
    (s, err)

/-! ## Calls with and without the deferred recover (for the totality claim) -/

/-- Calling `reflectSet` as written (with its deferred recover). -/
def reflectSetCall (t : GoType) (canSet : Bool) (v : GoValue) (s : List Char) : GoCall :=
  match reflectSetBody t canSet v s with
  | .ret v e => .normal v e
  | .panicked v m => .normal v (some (.recovered m))

/-- Calling the `reflectSet` body without the deferred recover. -/
def reflectSetNoRecover (t : GoType) (canSet : Bool) (v : GoValue) (s : List Char) : GoCall :=
  match reflectSetBody t canSet v s with
  | .ret v e => .normal v e
  | .panicked _ m => .fatal m

/-! ## Claims -/

/-- C4: for every field kind other than bool, the codec's set-from-string
on the empty string is a no-op — the field is unchanged and no error is
returned — in both `FieldItem.Set` and `reflectSet`; for a bool field the
empty string sets the field to `true`. -/
theorem C4_empty_input (t : GoType) (settable : Bool) (v : GoValue) (h : t ≠ GoType.tBool) :
    fieldItemSet t settable v [] = (v, none) ∧
    reflectSet t settable v [] = (v, none) ∧
    fieldItemSet .tBool true v [] = (.vBool true, none) ∧
    reflectSet .tBool true v [] = (.vBool true, none) := by
  refine ⟨?_, ?_, ?_, ?_⟩
  · unfold fieldItemSet fieldItemSetBody
    rw [if_pos ⟨by trivial, h⟩]
  · unfold reflectSet reflectSetBody
    cases settable
    · rfl
    · rw [if_neg (by simp), if_pos ⟨by trivial, h⟩]
  · rfl
  · rfl

theorem C4_empty_input_witness :
    fieldItemSet .tInt true (.vInt 7) [] = (.vInt 7, none) ∧
    reflectSet .tInt true (.vInt 7) [] = (.vInt 7, none) ∧
    fieldItemSet .tBool true (.vInt 7) [] = (.vBool true, none) ∧
    reflectSet .tBool true (.vInt 7) [] = (.vBool true, none) :=
  C4_empty_input .tInt true (.vInt 7) (by decide)

/-- C10: the codec's set-from-string is total on its inputs: with the
deferred recover in place, both `FieldItem.Set` and `reflectSet` always
return control to the caller normally, for every field and input string,
while the same bodies without the recover do let a reflection panic
escape on some input (an unsettable destination). -/
theorem C10_set_total :
    (∀ (t : GoType) (settable : Bool) (v : GoValue) (s : List Char),
        ∃ v1 e, fieldItemSetCall t settable v s = .normal v1 e) ∧
    (∀ (t : GoType) (canSet : Bool) (v : GoValue) (s : List Char),
        ∃ v1 e, reflectSetCall t canSet v s = .normal v1 e) ∧
    (∃ t settable v s m, fieldItemSetNoRecover t settable v s = .fatal m) := by
  refine ⟨?_, ?_, ?_⟩
  · intro t settable v s
    unfold fieldItemSetCall
    cases fieldItemSetBody t settable v s with
    | ret v1 e => exact ⟨v1, e, rfl⟩
    | panicked v1 m => exact ⟨v1, some (.recovered m), rfl⟩
  · intro t canSet v s
    unfold reflectSetCall
    cases reflectSetBody t canSet v s with
    | ret v1 e => exact ⟨v1, e, rfl⟩
    | panicked v1 m => exact ⟨v1, some (.recovered m), rfl⟩
  · exact ⟨.tString, false, .vString [], ['x'], unaddressableMsg, rfl⟩

/-- C2 counterexample: a `[]byte` (`[]uint8`) field is a sequence-kind
field, yet the codec's type switch catches it before the slice case and
`SetBytes` overwrites the whole slice: parsing `"1"` then `"2"` into an
empty `[]byte` field leaves the single byte `0x32`, not an appended
sequence. -/
theorem C2_counterexample :
    reflectSet .tBytes true (.vBytes []) ['1'] = (.vBytes [49], none) ∧
    reflectSet .tBytes true (.vBytes [49]) ['2'] = (.vBytes [50], none) ∧
    ([50] : List Nat) ≠ [49, 50] := by
  refine ⟨rfl, rfl, by decide⟩

/-- C2 as amended: for every sequence-kind field other than `[]byte`, one
invocation of `reflectSet` parses the input as exactly one new element by
the element kind's rule (on a fresh zero element) and appends it, erroring
without mutation when the element parse errors; repeated invocations
therefore accumulate in call order, `"1"` then `"2"` on an empty int
sequence giving `[1, 2]`. -/
theorem C2_sequence_append (et : GoType) (es : List GoValue) (s1 s2 : List Char)
    (h1 : s1 ≠ []) (h2 : s2 ≠ []) :
    (∀ ev, reflectSet et true (zeroValue et) s1 = (ev, none) →
        reflectSet (.tSlice et) true (.vSlice es) s1 = (.vSlice (es ++ [ev]), none)) ∧
    (∀ e1, (reflectSet et true (zeroValue et) s1).2 = some e1 →
        reflectSet (.tSlice et) true (.vSlice es) s1 = (.vSlice es, some e1)) ∧
    (∀ ev1 ev2, reflectSet et true (zeroValue et) s1 = (ev1, none) →
        reflectSet et true (zeroValue et) s2 = (ev2, none) →
        (let r1 := reflectSet (.tSlice et) true (.vSlice es) s1
         reflectSet (.tSlice et) true r1.1 s2 = (.vSlice (es ++ [ev1, ev2]), none))) := by
  have key : ∀ (s : List Char) (hs : s ≠ []) (l : List GoValue),
      (∀ ev, reflectSet et true (zeroValue et) s = (ev, none) →
        reflectSet (.tSlice et) true (.vSlice l) s = (.vSlice (l ++ [ev]), none)) ∧
      (∀ e1, (reflectSet et true (zeroValue et) s).2 = some e1 →
        reflectSet (.tSlice et) true (.vSlice l) s = (.vSlice l, some e1)) := by
    intro s hs l
    constructor
    · intro ev hev
      unfold reflectSet at hev ⊢
      unfold reflectSetBody
      simp only [not_true, if_false, Bool.false_eq_true]
      rw [if_neg (by simp [hs])]
      cases hb : reflectSetBody et true (zeroValue et) s with
      | ret bv be =>
        rw [hb] at hev
        cases be with
        | none =>
          simp only at hev
          have : bv = ev := by
            have := congrArg Prod.fst hev
            simpa using this
          rw [this]
        | some e =>
          simp only at hev
          exact absurd (congrArg Prod.snd hev) (by simp)
      | panicked bv bm =>
        rw [hb] at hev
        simp only at hev
        exact absurd (congrArg Prod.snd hev) (by simp)
    · intro e1 he1
      unfold reflectSet at he1 ⊢
      unfold reflectSetBody
      simp only [not_true, if_false, Bool.false_eq_true]
      rw [if_neg (by simp [hs])]
      cases hb : reflectSetBody et true (zeroValue et) s with
      | ret bv be =>
        rw [hb] at he1
        cases be with
        | none => simp at he1
        | some e =>
          simp only at he1
          cases he1
          rfl
      | panicked bv bm =>
        rw [hb] at he1
        simp only at he1
        cases he1
        rfl
  refine ⟨(key s1 h1 es).1, ?_, ?_⟩
  · intro e1 he1
    exact (key s1 h1 es).2 e1 he1
  · intro ev1 ev2 hev1 hev2
    have ha := (key s1 h1 es).1 ev1 hev1
    simp only [ha]
    have hb := (key s2 h2 (es ++ [ev1])).1 ev2 hev2
    simpa using hb

theorem C2_sequence_append_witness :
    reflectSet (.tSlice .tInt) true (.vSlice []) ['1'] = (.vSlice [.vInt 1], none) ∧
    reflectSet (.tSlice .tInt) true (.vSlice [.vInt 1]) ['2'] =
      (.vSlice [.vInt 1, .vInt 2], none) := by
  have h := C2_sequence_append .tInt [] ['1'] ['2'] (by decide) (by decide)
  have h1 := h.1 (.vInt 1) (by rfl)
  have h2 := h.2.2 (.vInt 1) (.vInt 2) (by rfl) (by rfl)
  simp only [h1] at h2 ⊢
  exact ⟨h1, by simpa using h2⟩

/-- C5: a field whose `env` tag is the literal `-` never receives a value
from any environment variable: its registration and its final bound value
are identical across any two runs that differ only in the process
environment. -/
theorem C5_env_dash (f : StructField) (h : f.envTag = ['-'])
    (envf1 envf2 : List Char → List Char) (pfx envPfx : List Char)
    (args : List (List Char × List Char)) :
    processField envf1 pfx envPfx f = processField envf2 pfx envPfx f ∧
    fieldFinal envf1 pfx envPfx f args = fieldFinal envf2 pfx envPfx f args := by
  have hp : processField envf1 pfx envPfx f = processField envf2 pfx envPfx f := by
    unfold processField
    rw [h]
    simp
  refine ⟨hp, ?_⟩
  unfold fieldFinal
  rw [hp]

theorem C5_env_dash_witness :
    (let f : StructField := ⟨['P','o','r','t'], true, [], [], ['-'], [], [], .tInt, .vInt 1⟩
     processField (fun _ => ['9']) [] [] f = processField (fun _ => []) [] [] f ∧
     fieldFinal (fun _ => ['9']) [] [] f [] = fieldFinal (fun _ => []) [] [] f []) :=
  C5_env_dash _ rfl (fun _ => ['9']) (fun _ => []) [] [] []

/-- C7: a field whose (trimmed) `flag` tag is the literal `-` is skipped
entirely: its registration step yields nothing, no flag name, alias or
shorthand of it enters the bound set (`flagItems`, the source of both the
registrations and the help list, is the same with or without the field),
and parsing never mutates it. -/
theorem C7_flag_dash (f : StructField) (h : fieldTag f.flagTag = ['-'])
    (envf : List Char → List Char) (pfx envPfx : List Char)
    (args : List (List Char × List Char)) :
    processField envf pfx envPfx f = .skipped ∧
    fieldFinal envf pfx envPfx f args = (f.init, none) ∧
    ∀ pre post, parseStructLoop envf pfx envPfx (pre ++ f :: post) =
      parseStructLoop envf pfx envPfx (pre ++ post) := by
  have hname : fieldName f.exported f.flagTag f.goName pfx = ['-'] := by
    unfold fieldName
    cases hexp : f.exported
    · simp
    · rw [h]
      simp
  have hskip : processField envf pfx envPfx f = .skipped := by
    unfold processField
    rw [hname]
    simp
  refine ⟨hskip, ?_, ?_⟩
  · unfold fieldFinal
    rw [hskip]
  · intro pre post
    induction pre with
    | nil => simp [parseStructLoop, hskip]
    | cons g tl ih =>
      simp only [List.cons_append, parseStructLoop]
      cases processField envf pfx envPfx g <;> simp [ih]

theorem C7_flag_dash_witness :
    (let f : StructField := ⟨['S','e','c','r','e','t'], true, ['-'], [], [], [], [], .tInt, .vInt 5⟩
     processField (fun _ => ['9']) [] [] f = .skipped ∧
     fieldFinal (fun _ => ['9']) [] [] f [(['s','e','c','r','e','t'], ['7'])] = (.vInt 5, none)) := by
  have h := C7_flag_dash ⟨['S','e','c','r','e','t'], true, ['-'], [], [], [], [], .tInt, .vInt 5⟩
    (by rfl) (fun _ => ['9']) [] [] [(['s','e','c','r','e','t'], ['7'])]
  exact ⟨h.1, h.2.1⟩

/-- The environment-key formula as the specification words it: the
optional prefix, then the uppercased flag name, with every `-` replaced by
`_` (stated independently of the binder, to be compared with it). -/
def specDerivedKey (envPfx name : List Char) : List Char :=
  replaceDash (envPfx ++ name.map goToUpper)

/-- C6: for a field without an explicit `env` tag, the environment key the
binder consults is exactly the specification's formula over the bound flag
name, and the lookup is exact: the whole binding outcome depends on the
environment only through that one key, so an environment agreeing with the
empty environment on it (for instance one carrying only `MAXCONN` while
the derived key is `MAX_CONNECTIONS`) leaves the field at its compile-time
default; and an explicit `env` tag overrides the derived key: the
registered key is then built from the tag, not from the flag name. -/
theorem C6_env_key (f : StructField) (pfx envPfx : List Char)
    (hskip : fieldName f.exported f.flagTag f.goName pfx ≠ ['-'])
    (hne : boundFlagName pfx f ≠ [])
    (envf1 envf2 : List Char → List Char)
    (args : List (List Char × List Char)) :
    (f.envTag = [] →
      (∀ it, processField envf1 pfx envPfx f = .bound it →
          it.envKey = specDerivedKey envPfx (boundFlagName pfx f)) ∧
      (envf1 (specDerivedKey envPfx (boundFlagName pfx f)) =
          envf2 (specDerivedKey envPfx (boundFlagName pfx f)) →
        processField envf1 pfx envPfx f = processField envf2 pfx envPfx f ∧
        fieldFinal envf1 pfx envPfx f args = fieldFinal envf2 pfx envPfx f args)) ∧
    (f.envTag ≠ [] → f.envTag ≠ ['-'] →
      ∀ it, processField envf1 pfx envPfx f = .bound it →
        it.envKey = replaceDash (envPfx ++ f.envTag)) := by
  constructor
  · intro htag
    have hkey : jEnvKey ((boundFlagName pfx f).map goToUpper) envPfx =
        specDerivedKey envPfx (boundFlagName pfx f) := by
      unfold jEnvKey specDerivedKey
      rw [if_neg (by simp [hne])]
    have hkeyof : ∀ it, processField envf1 pfx envPfx f = .bound it →
        it.envKey = specDerivedKey envPfx (boundFlagName pfx f) := by
      intro it hbound
      unfold processField at hbound
      rw [htag] at hbound
      simp only [if_neg hskip] at hbound
      simp only [hkey] at hbound
      by_cases hev : envf1 (specDerivedKey envPfx (boundFlagName pfx f)) = []
      · simp [hev] at hbound
        rw [← hbound]
      · simp [hev] at hbound
        rcases hset : fieldItemSet f.typ true f.init
            (envf1 (specDerivedKey envPfx (boundFlagName pfx f))) with ⟨v, e⟩
        rw [hset] at hbound
        cases e with
        | none =>
          simp at hbound
          rw [← hbound]
        | some e1 => simp at hbound
    refine ⟨hkeyof, ?_⟩
    intro hagree
    have hp : processField envf1 pfx envPfx f = processField envf2 pfx envPfx f := by
      unfold processField
      rw [htag]
      simp only [if_neg hskip]
      simp [hkey, hagree]
    refine ⟨hp, ?_⟩
    unfold fieldFinal
    rw [hp]
  · intro htag1 htag2 it hbound
    have hkey2 : jEnvKey f.envTag envPfx = replaceDash (envPfx ++ f.envTag) := by
      unfold jEnvKey
      rw [if_neg htag1]
    unfold processField at hbound
    simp only [if_neg hskip] at hbound
    rw [if_pos htag2] at hbound
    simp only [if_neg htag1, hkey2] at hbound
    by_cases hev : envf1 (replaceDash (envPfx ++ f.envTag)) = []
    · simp [hev] at hbound
      rw [← hbound]
    · simp [hev] at hbound
      rcases hset : fieldItemSet f.typ true f.init
          (envf1 (replaceDash (envPfx ++ f.envTag))) with ⟨v, e⟩
      rw [hset] at hbound
      cases e with
      | none =>
        simp at hbound
        rw [← hbound]
      | some e1 => simp at hbound

theorem C6_env_key_witness :
    (let f : StructField :=
       ⟨['M','a','x','C','o','n','n','e','c','t','i','o','n','s'],
        true, [], [], [], [], [], .tInt, .vInt 10⟩
     let g : StructField :=
       ⟨['A','d','d','r'], true, [], [], ['D','B','-','U','R','L'], [], [],
        .tString, .vString []⟩
     let envMaxconn : List Char → List Char :=
       fun k => if k = ['M','A','X','C','O','N','N'] then ['5'] else []
     processField envMaxconn [] [] f = processField (fun _ => []) [] [] f ∧
     fieldFinal envMaxconn [] [] f [] = fieldFinal (fun _ => []) [] [] f [] ∧
     (∀ it, processField envMaxconn [] [] f = .bound it →
        it.envKey =
          specDerivedKey []
            ['m','a','x','-','c','o','n','n','e','c','t','i','o','n','s']) ∧
     (∀ it, processField envMaxconn [] [] g = .bound it →
        it.envKey = ['D','B','_','U','R','L'])) := by
  have h := C6_env_key
    ⟨['M','a','x','C','o','n','n','e','c','t','i','o','n','s'],
     true, [], [], [], [], [], .tInt, .vInt 10⟩
    [] [] (by decide) (by decide)
    (fun k => if k = ['M','A','X','C','O','N','N'] then ['5'] else [])
    (fun _ => []) []
  have hder := h.1 rfl
  have hagd := hder.2 (by decide)
  have hexp := C6_env_key
    ⟨['A','d','d','r'], true, [], [], ['D','B','-','U','R','L'], [], [],
     .tString, .vString []⟩
    [] [] (by decide) (by decide)
    (fun k => if k = ['M','A','X','C','O','N','N'] then ['5'] else [])
    (fun _ => []) []
  refine ⟨hagd.1, hagd.2, hder.1, ?_⟩
  intro it hb
  have := hexp.2 (by decide) (by decide) it hb
  rw [this]
  decide

def c3IPField : StructField :=
  ⟨['A','d','d','r'], true, ['i','p'], [], [], [], [], .tIP, .vIP []⟩

/-- C3 counterexample: the claim says an explicitly supplied command-line
argument determines the final field value over any environment variable.
For an IP field the environment is applied eagerly and a malformed
argument is silently ignored, so with `IP=1.2.3.4` in the environment and
`--ip 999.1.1.1` on the command line the field ends at the environment's
address while the same run without the environment keeps the default: the
explicitly supplied argument did not determine the final value. -/
theorem C3_counterexample :
    (fieldFinal (fun k => if k = ['I','P'] then ['1','.','2','.','3','.','4'] else [])
        [] [] c3IPField [(['i','p'], ['9','9','9','.','1','.','1','.','1'])]).1 =
      .vIP (v4InV6Marker ++ [1, 2, 3, 4]) ∧
    (fieldFinal (fun _ => []) [] [] c3IPField
        [(['i','p'], ['9','9','9','.','1','.','1','.','1'])]).1 = .vIP [] ∧
    (v4InV6Marker ++ [1, 2, 3, 4] : List Nat) ≠ [] := by
  refine ⟨by rfl, by rfl, by decide⟩

/-- C3 as amended: an explicitly supplied argument whose value the codec
parses and commits (one whose `Set` yields the same stored value and no
error whatever the prior field state) determines the final field value,
whatever the environment holds; when no argument is supplied for the
field, the final value is the one the eager environment step produced; and
a non-empty environment value that the codec parses without error becomes
that produced value, overriding the compile-time default. -/
theorem C3_precedence (f : StructField) (envf : List Char → List Char)
    (pfx envPfx : List Char) (args : List (List Char × List Char))
    (it : FieldItemM) (s : List Char) (w : GoValue)
    (hbound : processField envf pfx envPfx f = .bound it) :
    (argsFor it args = [s] → (∀ v, fieldItemSet f.typ true v s = (w, none)) →
        fieldFinal envf pfx envPfx f args = (w, none)) ∧
    (argsFor it args = [] → fieldFinal envf pfx envPfx f args = (it.value, none)) ∧
    (∀ es w2, f.envTag = [] →
        fieldName f.exported f.flagTag f.goName pfx ≠ ['-'] →
        envf (jEnvKey ((boundFlagName pfx f).map goToUpper) envPfx) = es → es ≠ [] →
        fieldItemSet f.typ true f.init es = (w2, none) →
        ∀ it2, processField envf pfx envPfx f = .bound it2 → it2.value = w2) := by
  refine ⟨?_, ?_, ?_⟩
  · intro hargs hdet
    unfold fieldFinal
    rw [hbound]
    dsimp only
    rw [hargs]
    unfold applyArgs
    rw [hdet it.value]
    rfl
  · intro hargs
    unfold fieldFinal
    rw [hbound]
    dsimp only
    rw [hargs]
    rfl
  · intro es w2 htag hskip hes hesne hset it2 hb2
    unfold processField at hb2
    rw [if_neg hskip, htag] at hb2
    simp only [if_pos (show ([] : List Char) ≠ ['-'] by decide), if_true] at hb2
    rw [hes] at hb2
    simp only [if_pos hesne] at hb2
    rw [hset] at hb2
    simp only at hb2
    cases hb2
    rfl

def c3PortField : StructField :=
  ⟨['P','o','r','t'], true, ['p','o','r','t'], [], [], [], [], .tInt, .vInt 3000⟩

theorem C3_precedence_witness :
    (let envPort : List Char → List Char :=
       fun k => if k = ['P','O','R','T'] then ['9','0','0','0'] else []
     fieldFinal envPort [] [] c3PortField [(['p','o','r','t'], ['8','0','8','0'])] =
       (.vInt 8080, none) ∧
     fieldFinal envPort [] [] c3PortField [] = (.vInt 9000, none)) := by
  have hbound : processField
      (fun k => if k = ['P','O','R','T'] then ['9','0','0','0'] else []) [] [] c3PortField =
      .bound ⟨['p','o','r','t'], [], [], [], ['P','O','R','T'], .vInt 9000⟩ := by rfl
  have h := C3_precedence c3PortField
    (fun k => if k = ['P','O','R','T'] then ['9','0','0','0'] else []) [] []
    [(['p','o','r','t'], ['8','0','8','0'])]
    ⟨['p','o','r','t'], [], [], [], ['P','O','R','T'], .vInt 9000⟩
    ['8','0','8','0'] (.vInt 8080) hbound
  have h2 := C3_precedence c3PortField
    (fun k => if k = ['P','O','R','T'] then ['9','0','0','0'] else []) [] [] []
    ⟨['p','o','r','t'], [], [], [], ['P','O','R','T'], .vInt 9000⟩
    ['8','0','8','0'] (.vInt 8080) hbound
  exact ⟨h.1 (by rfl) (fun v => by rfl), h2.2.1 (by rfl)⟩

theorem find?_range'_eq_some (pred : Nat → Bool) (n : Nat) :
    ∀ (s p : Nat), s ≤ p → p < s + n → pred p = true →
    (∀ q, s ≤ q → q < p → pred q = false) →
    (List.range' s n).find? pred = some p := by
  induction n with
  | zero => intro s p h1 h2; omega
  | succ n ih =>
    intro s p hlo hhi hpred hmin
    rw [List.range'_succ]
    rcases Nat.eq_or_lt_of_le hlo with heq | hlt
    · subst heq
      exact List.find?_cons_of_pos _ hpred
    · have hps : pred s = false := hmin s le_rfl hlt
      rw [List.find?_cons_of_neg _ (by simp [hps])]
      exact ih (s + 1) p hlt (by omega) hpred (fun q hq1 hq2 => hmin q (by omega) hq2)

theorem find?_range_eq_some (pred : Nat → Bool) (n p : Nat)
    (hhi : p < n) (hpred : pred p = true)
    (hmin : ∀ q, q < p → pred q = false) :
    (List.range n).find? pred = some p := by
  rw [List.range_eq_range']
  exact find?_range'_eq_some pred n 0 p (Nat.zero_le p) (by omega) hpred
    (fun q _ hq2 => hmin q hq2)

/-- Taking everything before the trailing run of characters satisfying
`P`. -/
theorem take_before_trailing (P : Char → Bool) (l : List Char) :
    l.take (l.length - (l.reverse.takeWhile P).length) = (l.reverse.dropWhile P).reverse := by
  have hsplit : (l.reverse.dropWhile P).reverse ++ (l.reverse.takeWhile P).reverse = l := by
    rw [← List.reverse_append, List.takeWhile_append_dropWhile, List.reverse_reverse]
  have hlen : (l.reverse.dropWhile P).reverse.length =
      l.length - (l.reverse.takeWhile P).length := by
    have h1 : (l.reverse.takeWhile P).length + (l.reverse.dropWhile P).length = l.length := by
      rw [← List.length_append, List.takeWhile_append_dropWhile, List.length_reverse]
    simp only [List.length_reverse]
    omega
  calc l.take (l.length - (l.reverse.takeWhile P).length)
      = ((l.reverse.dropWhile P).reverse ++ (l.reverse.takeWhile P).reverse).take
          (l.length - (l.reverse.takeWhile P).length) := by rw [hsplit]
    _ = (l.reverse.dropWhile P).reverse := List.take_left' hlen

/-- C8: a usage string of the shape `<pre>**DEPRECATED**<tail>` — with the
marker's first occurrence exactly after `pre` and a tail whose text after
leading whitespace carries no newline — registers with the displayed usage
equal to `pre` stripped of its trailing whitespace and the recorded
deprecation reason equal to the tail stripped of its leading whitespace,
or the generic `deprecated` when that tail is empty. -/
theorem C8_deprecated_marker (pre tail : List Char)
    (hfirst : ∀ q, q < pre.length →
        markerChars.isPrefixOf ((pre ++ markerChars ++ tail).drop q) = false)
    (htail : (tail.dropWhile isRegexSpace).all (fun c => c ≠ '\n') = true) :
    applyDeprecation (pre ++ markerChars ++ tail) =
      ((pre.reverse.dropWhile isRegexSpace).reverse,
       some (if tail.dropWhile isRegexSpace = []
             then ['d', 'e', 'p', 'r', 'e', 'c', 'a', 't', 'e', 'd']
             else tail.dropWhile isRegexSpace)) := by
  have hassoc : pre ++ markerChars ++ tail = (pre ++ markerChars) ++ tail := by
    rw [List.append_assoc]
  have hdropP : (pre ++ markerChars ++ tail).drop pre.length = markerChars ++ tail := by
    rw [List.append_assoc, List.drop_left]
  have hdrop14 : (pre ++ markerChars ++ tail).drop (pre.length + 14) = tail := by
    rw [hassoc, List.drop_left' (by simp [markerChars])]
  have htakeP : (pre ++ markerChars ++ tail).take pre.length = pre := by
    rw [List.append_assoc, List.take_left]
  have hokP : (markerChars.isPrefixOf ((pre ++ markerChars ++ tail).drop pre.length) &&
      (((pre ++ markerChars ++ tail).drop (pre.length + 14)).dropWhile isRegexSpace).all
        (fun c => c ≠ '\n')) = true := by
    rw [hdropP, hdrop14]
    rw [Bool.and_eq_true]
    exact ⟨List.isPrefixOf_iff_prefix.mpr (List.prefix_append _ _), htail⟩
  have hlen : pre.length < (pre ++ markerChars ++ tail).length + 1 := by
    have h14 : markerChars.length = 14 := rfl
    simp only [List.length_append]
    omega
  unfold applyDeprecation findDeprecated
  dsimp only
  rw [find?_range_eq_some _ _ pre.length hlen hokP
    (fun q hq => by
      have h := hfirst q hq
      rw [List.append_assoc] at h
      simp only [List.append_assoc, h, Bool.false_and])]
  dsimp only
  rw [htakeP, hdrop14]
  have htake2 : (pre ++ markerChars ++ tail).take
      (pre.length - (pre.reverse.takeWhile isRegexSpace).length) =
      (pre.reverse.dropWhile isRegexSpace).reverse := by
    rw [List.append_assoc, List.take_append_of_le_length (by omega)]
    exact take_before_trailing isRegexSpace pre
  rw [htake2]

theorem C8_deprecated_marker_witness :
    applyDeprecation
      ("old flag ".toList ++ markerChars ++ " use --new instead".toList) =
      ("old flag".toList, some ("use --new instead".toList)) := by
  have h := C8_deprecated_marker ("old flag ".toList) (" use --new instead".toList)
    (by decide) (by decide)
  rw [h]
  rfl

/-- C9: the config decoder is selected by an explicit `type:path` prefix
when a colon is present — that prefix takes precedence over any file
extension in the path — and otherwise by the extension
(`.json`, `.yaml`/`.yml`, `.toml`, `.ini`); a selected type outside the
supported set makes `Set` report the unsupported-config error, while a
missing file under a supported type is treated as not present and yields
no error. -/
theorem C9_config_selection (w : ConfigWorld) :
    (∀ ct path : List Char, ct.all (fun c => c ≠ ':') = true →
        getCotentType (ct ++ ':' :: path) = (ct, path)) ∧
    (∀ s : List Char, s.all (fun c => c ≠ ':') = true →
        (goExt s = '.' :: ctJson → getCotentType s = (ctJson, s)) ∧
        (goExt s = '.' :: ctYaml → getCotentType s = (ctYaml, s)) ∧
        (goExt s = ['.', 'y', 'm', 'l'] → getCotentType s = (ctYaml, s)) ∧
        (goExt s = '.' :: ctToml → getCotentType s = (ctToml, s)) ∧
        (goExt s = '.' :: ctIni → getCotentType s = (ctIni, s))) ∧
    (∀ s : List Char, s ≠ [] →
        ¬((getCotentType s).1 = ctJson ∨ (getCotentType s).1 = ctYaml ∨
          (getCotentType s).1 = ctToml ∨ (getCotentType s).1 = ctIni) →
        configFileValueSet w s = (s, some (CfgErr.unsupported s))) ∧
    (∀ s ct path : List Char, s ≠ [] → getCotentType s = (ct, path) →
        (ct = ctJson ∨ ct = ctYaml ∨ ct = ctToml ∨ ct = ctIni) →
        path ≠ [] → w.read path = .error .notExist →
        configFileValueSet w s = (s, none)) := by
  have hTakeSelf : ∀ (l : List Char), l.all (fun c => c ≠ ':') = true →
      l.takeWhile (fun c => c ≠ ':') = l := by
    intro l hl
    exact List.takeWhile_eq_self_iff.mpr (List.all_eq_true.mp hl)
  have hCutNone : ∀ (l : List Char), l.all (fun c => c ≠ ':') = true →
      strCut l ':' = none := by
    intro l hl
    unfold strCut
    rw [if_pos (by rw [hTakeSelf l hl])]
  refine ⟨?_, ?_, ?_, ?_⟩
  · intro ct path hct
    unfold getCotentType
    rw [if_neg (by simp)]
    have htw : (ct ++ ':' :: path).takeWhile (fun c => c ≠ ':') = ct := by
      rw [List.takeWhile_append, if_pos (by rw [hTakeSelf ct hct])]
      rw [List.takeWhile_cons]
      simp
    have hcut : strCut (ct ++ ':' :: path) ':' = some (ct, path) := by
      unfold strCut
      rw [htw]
      rw [if_neg (by
        simp only [List.length_append, List.length_cons]
        omega)]
      congr 1
      rw [show ct ++ ':' :: path = (ct ++ [':']) ++ path by simp]
      rw [List.drop_left' (by simp)]
    rw [hcut]
  · intro s hs
    by_cases hnil : s = []
    · subst hnil
      refine ⟨?_, ?_, ?_, ?_, ?_⟩ <;> intro hext <;> simp [goExt] at hext
    · have hcut := hCutNone s hs
      refine ⟨?_, ?_, ?_, ?_, ?_⟩ <;> intro hext <;>
        · unfold getCotentType
          rw [if_neg hnil, hcut, hext]
          rfl
  · intro s hnil hunsup
    unfold configFileValueSet
    rw [if_neg hnil]
    rcases hget : getCotentType s with ⟨ct, path⟩
    rw [hget] at hunsup
    simp only at hunsup
    dsimp only
    rw [if_neg hunsup]
  · intro s ct path hnil hget hsup hpath hread
    unfold configFileValueSet
    rw [if_neg hnil, hget]
    dsimp only
    rw [if_pos hsup, if_neg hpath, hread]

theorem C9_config_selection_witness :
    (let w0 : ConfigWorld := ⟨fun _ => .error .notExist, fun _ _ => true⟩
     getCotentType ("json".toList ++ ':' :: "x.yml".toList) = (ctJson, "x.yml".toList) ∧
     getCotentType "conf.yml".toList = (ctYaml, "conf.yml".toList) ∧
     configFileValueSet w0 "conf.xml".toList =
       ("conf.xml".toList, some (CfgErr.unsupported "conf.xml".toList)) ∧
     configFileValueSet w0 "conf.json".toList = ("conf.json".toList, none)) := by
  have h := C9_config_selection ⟨fun _ => .error .notExist, fun _ _ => true⟩
  refine ⟨h.1 "json".toList "x.yml".toList (by decide), ?_, ?_, ?_⟩
  · exact (h.2.1 "conf.yml".toList (by decide)).2.2.1 (by decide)
  · exact h.2.2.1 "conf.xml".toList (by decide) (by decide)
  · exact h.2.2.2 "conf.json".toList ctJson "conf.json".toList (by decide) (by decide)
      (Or.inl rfl) (by decide) rfl

/-! ## String-decomposition lemmas for the round-trip proofs -/

theorem takeWhile_append_all (p : Char → Bool) {l1 l2 : List Char}
    (h1 : l1.all p = true) (h2 : l2.takeWhile p = []) :
    (l1 ++ l2).takeWhile p = l1 ∧ (l1 ++ l2).dropWhile p = l2 := by
  have hself : l1.takeWhile p = l1 := List.takeWhile_eq_self_iff.mpr (List.all_eq_true.mp h1)
  constructor
  · rw [List.takeWhile_append, if_pos (by rw [hself]), h2, List.append_nil]
  · induction l1 with
    | nil => simpa [List.dropWhile] using (by
        have := List.takeWhile_append_dropWhile p l2
        rw [h2] at this
        simpa using this)
    | cons c t ih =>
      simp only [List.all_cons, Bool.and_eq_true] at h1
      rw [List.takeWhile_cons, if_pos h1.1] at hself
      simp only [List.cons_append, List.dropWhile_cons, h1.1, if_true]
      exact ih h1.2 (by
        have := List.takeWhile_eq_self_iff.mpr (List.all_eq_true.mp h1.2)
        rw [this])

theorem takeWhile_nil_of_head_false (p : Char → Bool) (c : Char) (l : List Char)
    (h : p c = false) : (c :: l).takeWhile p = [] := by
  rw [List.takeWhile_cons, if_neg (by simp [h])]

theorem formatNat_length_le {v k : Nat} (hv : v < 10 ^ k) (hk : 1 ≤ k) :
    (formatNat v).length ≤ k := by
  rw [formatNat_eq]
  by_cases h : v = 0
  · subst h
    simp only [if_true, List.length_cons, List.length_nil]
    omega
  · simp only [h, if_false, List.length_map, List.length_reverse]
    rw [Nat.digits_len 10 v (by norm_num) h]
    have := (Nat.lt_pow_iff_log_lt (by norm_num : 1 < 10) h).mp hv
    omega

/-- The leading digit of a nonzero decimal rendering is not `'0'`; the
`parseV4Field` leading-zero guard therefore never rejects `formatNat`. -/
theorem formatNat_no_leading_zero (v : Nat) :
    ¬(1 < (formatNat v).length ∧ (formatNat v).headI = '0') := by
  rw [formatNat_eq]
  by_cases h : v = 0
  · simp [h]
  · simp only [h, if_false]
    rintro ⟨hlen, hhead⟩
    have hne : Nat.digits 10 v ≠ [] := Nat.digits_ne_nil_iff_ne_zero.mpr h
    have hne2 : (Nat.digits 10 v).reverse.map decDigitChar ≠ [] := by
      simp [hne]
    have hh : ((Nat.digits 10 v).reverse.map decDigitChar).head? =
        some (decDigitChar ((Nat.digits 10 v).getLast hne)) := by
      rw [List.head?_map, List.head?_reverse, List.getLast?_eq_getLast _ hne]
      rfl
    rcases hlist : (Nat.digits 10 v).reverse.map decDigitChar with _ | ⟨c, t⟩
    · exact hne2 hlist
    · rw [hlist] at hh hhead
      simp only [List.head?_cons, Option.some_inj] at hh
      simp only [List.headI] at hhead
      have hlast9 : (Nat.digits 10 v).getLast hne < 10 :=
        Nat.digits_lt_base (by norm_num) (List.getLast_mem hne)
      have hlast0 : (Nat.digits 10 v).getLast hne ≠ 0 := Nat.getLast_digit_ne_zero 10 h
      have hc : c.toNat = 48 + (Nat.digits 10 v).getLast hne := by
        rw [hh, decDigitChar_toNat hlast9]
      rw [hhead] at hc
      have h0 : ('0' : Char).toNat = 48 := by decide
      omega

theorem parseV4Field_format (a : Nat) (ha : a ≤ 255) (l2 : List Char)
    (h2 : l2.takeWhile isDecDigit = []) :
    parseV4Field (formatNat a ++ l2) = some (a, l2) := by
  obtain ⟨htake, hdrop⟩ := takeWhile_append_all isDecDigit (formatNat_all_digits a) h2
  unfold parseV4Field
  rw [htake, hdrop]
  rw [if_neg (by simp [formatNat_ne_nil a])]
  rw [if_neg (formatNat_no_leading_zero a)]
  rw [if_neg (by
    have := formatNat_length_le (v := a) (k := 3) (by omega) (by omega)
    omega)]
  rw [if_neg (by rw [decVal_formatNat]; omega)]
  rw [decVal_formatNat]

theorem goParseIPv4_quad (a b c d : Nat)
    (ha : a ≤ 255) (hb : b ≤ 255) (hc : c ≤ 255) (hd : d ≤ 255) :
    goParseIPv4 (formatNat a ++ ('.' :: (formatNat b ++ ('.' :: (formatNat c ++
      ('.' :: formatNat d)))))) = some [a, b, c, d] := by
  have hdot : ∀ l : List Char, ('.' :: l).takeWhile isDecDigit = [] :=
    fun l => takeWhile_nil_of_head_false _ _ _ (by decide)
  unfold goParseIPv4
  rw [parseV4Field_format a ha
    ('.' :: (formatNat b ++ ('.' :: (formatNat c ++ ('.' :: formatNat d))))) (hdot _)]
  dsimp only
  rw [show expectChar '.' ('.' :: (formatNat b ++ ('.' :: (formatNat c ++ ('.' :: formatNat d))))) =
    some (formatNat b ++ ('.' :: (formatNat c ++ ('.' :: formatNat d)))) from rfl]
  dsimp only
  rw [parseV4Field_format b hb ('.' :: (formatNat c ++ ('.' :: formatNat d))) (hdot _)]
  dsimp only
  rw [show expectChar '.' ('.' :: (formatNat c ++ ('.' :: formatNat d))) =
    some (formatNat c ++ ('.' :: formatNat d)) from rfl]
  dsimp only
  rw [parseV4Field_format c hc ('.' :: formatNat d) (hdot _)]
  dsimp only
  rw [show expectChar '.' ('.' :: formatNat d) = some (formatNat d) from rfl]
  dsimp only
  rw [show parseV4Field (formatNat d) = some (d, []) from by
    rw [← List.append_nil (formatNat d)]
    exact parseV4Field_format d hd [] rfl]
  rfl

theorem digits_not_dot_colon {c : Char} (h : isDecDigit c = true) :
    (decide (c = '.' ∨ c = ':')) = false := by
  simp only [decide_eq_false_iff_not, not_or]
  constructor
  · intro hcon; rw [hcon] at h; exact absurd h (by decide)
  · intro hcon; rw [hcon] at h; exact absurd h (by decide)

theorem find?_quad_dot (l1 rest : List Char) (h : l1.all isDecDigit = true) :
    (l1 ++ '.' :: rest).find? (fun c => decide (c = '.' ∨ c = ':')) = some '.' := by
  rw [List.find?_append]
  rw [List.find?_eq_none.mpr (fun x hx => by
    simp only [digits_not_dot_colon (List.all_eq_true.mp h x hx)]
    simp)]
  rw [List.find?_cons_of_pos _ (by decide)]
  rfl

theorem goIPString_four (a b c d : Nat) :
    goIPString [a, b, c, d] = formatNat a ++ ('.' :: (formatNat b ++ ('.' :: (formatNat c ++
      ('.' :: formatNat d))))) := by
  unfold goIPString ipTo4
  simp [List.append_assoc]

theorem goIPString_mapped (a b c d : Nat) :
    goIPString (v4InV6Marker ++ [a, b, c, d]) =
      formatNat a ++ ('.' :: (formatNat b ++ ('.' :: (formatNat c ++
        ('.' :: formatNat d))))) := by
  unfold goIPString ipTo4 v4InV6Marker
  simp [List.append_assoc]

theorem goParseIP_quad (a b c d : Nat)
    (ha : a ≤ 255) (hb : b ≤ 255) (hc : c ≤ 255) (hd : d ≤ 255) :
    goParseIP (formatNat a ++ ('.' :: (formatNat b ++ ('.' :: (formatNat c ++
      ('.' :: formatNat d)))))) = some (v4InV6Marker ++ [a, b, c, d]) := by
  unfold goParseIP
  rw [find?_quad_dot _ _ (formatNat_all_digits a)]
  simp [goParseIPv4_quad a b c d ha hb hc hd]

theorem simpleMaskLength_cidr32 : ∀ n, n ≤ 32 →
    simpleMaskLength (cidrMask n 32) = some n := by decide

set_option maxHeartbeats 4000000 in
theorem simpleMaskLength_cidr128 : ∀ n, n ≤ 128 →
    simpleMaskLength (cidrMask n 128) = some n := by decide

theorem all_imp {p q : Char → Bool} (h : ∀ c, p c = true → q c = true)
    {l : List Char} (hl : l.all p = true) : l.all q = true :=
  List.all_eq_true.mpr (fun x hx => h x (List.all_eq_true.mp hl x hx))

theorem digit_ne_slash : ∀ c : Char, isDecDigit c = true → (decide ¬(c = '/')) = true := by
  intro c h
  simp only [decide_not, Bool.not_eq_true', decide_eq_false_iff_not]
  intro hc
  rw [hc] at h
  exact absurd h (by decide)

theorem quad_all_ne_slash (a b c d : Nat) :
    (formatNat a ++ ('.' :: (formatNat b ++ ('.' :: (formatNat c ++
      ('.' :: formatNat d)))))).all (fun x => decide ¬(x = '/')) = true := by
  have hdig : ∀ v : Nat, (formatNat v).all (fun x => decide ¬(x = '/')) = true :=
    fun v => all_imp digit_ne_slash (formatNat_all_digits v)
  simp only [List.all_append, List.all_cons, Bool.and_eq_true]
  refine ⟨hdig a, by decide, hdig b, by decide, hdig c, by decide, hdig d⟩

theorem format_append_ne_nilstr (a : Nat) (X : List Char) :
    ¬(formatNat a ++ X = ['<', 'n', 'i', 'l', '>']) := by
  cases hf : formatNat a with
  | nil => exact absurd hf (formatNat_ne_nil a)
  | cons c t =>
    intro hcon
    simp only [List.cons_append, List.cons.injEq] at hcon
    have hdig := formatNat_all_digits a
    rw [hf] at hdig
    simp only [List.all_cons, Bool.and_eq_true] at hdig
    have := hdig.1
    rw [hcon.1] at this
    exact absurd this (by decide)

theorem goParseCIDR_v4 (a b c d n : Nat)
    (ha : a ≤ 255) (hb : b ≤ 255) (hc : c ≤ 255) (hd : d ≤ 255) (hn : n ≤ 32)
    (hmask : maskBytes [a, b, c, d] (cidrMask n 32) = [a, b, c, d]) :
    goParseCIDR (goIPNetString [a, b, c, d] (cidrMask n 32)) =
      some ([a, b, c, d], cidrMask n 32) := by
  have hnn : goIPNetString [a, b, c, d] (cidrMask n 32) =
      (formatNat a ++ ('.' :: (formatNat b ++ ('.' :: (formatNat c ++
        ('.' :: formatNat d)))))) ++ '/' :: formatNat n := by
    unfold goIPNetString
    rw [simpleMaskLength_cidr32 n hn]
    dsimp only
    rw [goIPString_four]
    rw [if_neg (format_append_ne_nilstr a _)]
  rw [hnn]
  unfold goParseCIDR
  obtain ⟨htake, hdrop⟩ := takeWhile_append_all (fun x => decide ¬(x = '/'))
    (quad_all_ne_slash a b c d)
    (takeWhile_nil_of_head_false _ '/' _ (by decide))
  rw [htake, hdrop]
  dsimp only
  rw [if_neg (by simp)]
  rw [find?_quad_dot _ _ (formatNat_all_digits a)]
  simp only [goParseIPv4_quad a b c d ha hb hc hd]
  rw [if_pos ⟨formatNat_ne_nil n, formatNat_all_digits n, by rw [decVal_formatNat]; omega⟩]
  rw [decVal_formatNat, hmask]

theorem decVal_replicate_zero (m : Nat) : decVal (List.replicate m '0') = 0 := by
  induction m with
  | zero => rfl
  | succ k ih =>
    rw [List.replicate_succ]
    unfold decVal at ih ⊢
    simp only [List.foldl_cons]
    have : (0 : Nat) * 10 + ('0'.toNat - 48) = 0 := by decide
    rw [this, ih]

theorem padDecimal_length {k v : Nat} (hv : v < 10 ^ k) (hk : 1 ≤ k) :
    (padDecimal k v).length = k := by
  unfold padDecimal
  have := formatNat_length_le hv hk
  simp only [List.length_append, List.length_replicate]
  omega

theorem padDecimal_all_digits (k v : Nat) : (padDecimal k v).all isDecDigit = true := by
  unfold padDecimal
  rw [List.all_append, Bool.and_eq_true]
  refine ⟨?_, formatNat_all_digits v⟩
  rw [List.all_eq_true]
  intro x hx
  rw [List.eq_of_mem_replicate hx]
  decide

theorem decVal_padDecimal (k v : Nat) : decVal (padDecimal k v) = v := by
  unfold padDecimal
  rw [decVal_append, decVal_replicate_zero, decVal_formatNat]
  ring

theorem readDigits_pad {k v : Nat} (hv : v < 10 ^ k) (hk : 1 ≤ k) (rest : List Char) :
    readDigits k (padDecimal k v ++ rest) = some (v, rest) := by
  unfold readDigits
  have hlen := padDecimal_length hv hk
  rw [List.take_append_of_le_length (by omega), List.take_of_length_le (by omega)]
  rw [List.drop_append_of_le_length (by omega), List.drop_of_length_le (by omega)]
  rw [if_pos ⟨hlen, padDecimal_all_digits k v⟩]
  rw [decVal_padDecimal]
  simp

theorem readNumSep_pad {k v : Nat} (hv : v < 10 ^ k) (hk : 1 ≤ k) (sep : Char)
    (rest : List Char) :
    readNumSep k sep (padDecimal k v ++ sep :: rest) = some (v, rest) := by
  unfold readNumSep
  rw [readDigits_pad hv hk]
  dsimp only
  rw [show expectChar sep (sep :: rest) = some rest from by
    unfold expectChar
    dsimp only
    rw [if_pos rfl]]

theorem parseZone_plus (zh zm : Nat) (hzh : zh ≤ 23) (hzm : zm ≤ 59) :
    parseZone ('+' :: (padDecimal 2 zh ++ (':' :: padDecimal 2 zm))) =
      some ((zh * 60 + zm : Nat) : Int) := by
  unfold parseZone
  dsimp only
  rw [if_neg (by simp)]
  rw [if_pos (Or.inl rfl)]
  rw [readDigits_pad (by omega) (by omega)]
  dsimp only
  rw [show expectChar ':' (':' :: padDecimal 2 zm) = some (padDecimal 2 zm) from by
    unfold expectChar
    dsimp only
    rw [if_pos rfl]]
  dsimp only
  rw [show readDigits 2 (padDecimal 2 zm) = some (zm, []) from by
    rw [← List.append_nil (padDecimal 2 zm)]
    exact readDigits_pad (by omega) (by omega) []]
  dsimp only
  rw [if_pos ⟨rfl, hzh, hzm⟩]
  rw [if_neg (by decide)]

theorem parseZone_minus (zh zm : Nat) (hzh : zh ≤ 23) (hzm : zm ≤ 59) :
    parseZone ('-' :: (padDecimal 2 zh ++ (':' :: padDecimal 2 zm))) =
      some (-((zh * 60 + zm : Nat) : Int)) := by
  unfold parseZone
  dsimp only
  rw [if_neg (by simp)]
  rw [if_pos (Or.inr rfl)]
  rw [readDigits_pad (by omega) (by omega)]
  dsimp only
  rw [show expectChar ':' (':' :: padDecimal 2 zm) = some (padDecimal 2 zm) from by
    unfold expectChar
    dsimp only
    rw [if_pos rfl]]
  dsimp only
  rw [show readDigits 2 (padDecimal 2 zm) = some (zm, []) from by
    rw [← List.append_nil (padDecimal 2 zm)]
    exact readDigits_pad (by omega) (by omega) []]
  dsimp only
  rw [if_pos ⟨rfl, hzh, hzm⟩]
  rw [if_pos rfl]

theorem rfc3339Parse_format (t : GoTime) (hv : goTimeValid t = true) (hns : t.nsec = 0) :
    rfc3339Parse (rfc3339Format t) = some t := by
  have hvp := hv
  simp only [goTimeValid, Bool.and_eq_true, decide_eq_true_eq] at hvp
  obtain ⟨⟨⟨⟨⟨⟨⟨⟨⟨hy, hmo1⟩, hmo2⟩, hd1⟩, hd2⟩, hh⟩, hmi⟩, hs⟩, hn9⟩, hoffb⟩ := hvp
  have hdmax : daysIn t.month t.year ≤ 31 := by
    unfold daysIn
    split_ifs <;> omega
  have hfmt : rfc3339Format t =
      padDecimal 4 t.year ++ ('-' :: (padDecimal 2 t.month ++ ('-' :: (padDecimal 2 t.day ++
      ('T' :: (padDecimal 2 t.hour ++ (':' :: (padDecimal 2 t.minute ++
      (':' :: (padDecimal 2 t.second ++
      (if t.offsetMin = 0 then ['Z']
       else (if t.offsetMin < 0 then '-' else '+') ::
         (padDecimal 2 (t.offsetMin.natAbs / 60) ++
           ':' :: padDecimal 2 (t.offsetMin.natAbs % 60))))))))))))) := by
    unfold rfc3339Format
    simp [List.append_assoc]
  rw [hfmt]
  unfold rfc3339Parse
  rw [readNumSep_pad (by omega) (by omega)]
  dsimp only
  rw [readNumSep_pad (by omega) (by omega)]
  dsimp only
  rw [readNumSep_pad (by omega) (by omega)]
  dsimp only
  rw [readNumSep_pad (by omega) (by omega)]
  dsimp only
  rw [readNumSep_pad (by omega) (by omega)]
  dsimp only
  rw [readDigits_pad (by omega) (by omega)]
  dsimp only
  by_cases hoff : t.offsetMin = 0
  · rw [hoff]
    rw [if_pos rfl]
    rw [show parseFrac ['Z'] = some (0, ['Z']) from rfl]
    dsimp only
    rw [show parseZone ['Z'] = some 0 from rfl]
    dsimp only
    rw [show (0 : Nat) = t.nsec from hns.symm, show (0 : Int) = t.offsetMin from hoff.symm]
    rw [if_pos hv]
  · rw [if_neg hoff]
    by_cases hsign : t.offsetMin < 0
    · rw [if_pos hsign]
      rw [show parseFrac ('-' :: (padDecimal 2 (t.offsetMin.natAbs / 60) ++
          ':' :: padDecimal 2 (t.offsetMin.natAbs % 60))) =
        some (0, '-' :: (padDecimal 2 (t.offsetMin.natAbs / 60) ++
          ':' :: padDecimal 2 (t.offsetMin.natAbs % 60))) from rfl]
      dsimp only
      rw [parseZone_minus _ _ (by omega) (by omega)]
      dsimp only
      have heq : -(((t.offsetMin.natAbs / 60 * 60 + t.offsetMin.natAbs % 60 : Nat) : Int)) =
          t.offsetMin := by
        have := Nat.div_add_mod t.offsetMin.natAbs 60
        omega
      rw [show (0 : Nat) = t.nsec from hns.symm, heq]
      rw [if_pos hv]
    · rw [if_neg hsign]
      rw [show parseFrac ('+' :: (padDecimal 2 (t.offsetMin.natAbs / 60) ++
          ':' :: padDecimal 2 (t.offsetMin.natAbs % 60))) =
        some (0, '+' :: (padDecimal 2 (t.offsetMin.natAbs / 60) ++
          ':' :: padDecimal 2 (t.offsetMin.natAbs % 60))) from rfl]
      dsimp only
      rw [parseZone_plus _ _ (by omega) (by omega)]
      dsimp only
      have heq : (((t.offsetMin.natAbs / 60 * 60 + t.offsetMin.natAbs % 60 : Nat) : Int)) =
          t.offsetMin := by
        have := Nat.div_add_mod t.offsetMin.natAbs 60
        omega
      rw [show (0 : Nat) = t.nsec from hns.symm, heq]
      rw [if_pos hv]

theorem unit_head_not_digit {uname : List Char} (huall : uname.all isUnitChar = true)
    (hune : uname ≠ []) (rest : List Char) :
    (uname ++ rest).takeWhile isDecDigit = [] := by
  cases uname with
  | nil => exact absurd rfl hune
  | cons u0 utl =>
    simp only [List.all_cons, Bool.and_eq_true] at huall
    have hu0 := huall.1
    simp only [isUnitChar, decide_eq_true_eq, not_or] at hu0
    apply takeWhile_nil_of_head_false
    cases hdig : isDecDigit u0
    · rfl
    · exact absurd hdig hu0.2

theorem leadingInt_format (v : Nat) (hv : v ≤ 2 ^ 63) (rest : List Char)
    (hrest : rest.takeWhile isDecDigit = []) :
    leadingInt (formatNat v ++ rest) = some (v, rest) := by
  obtain ⟨ht, hd⟩ := takeWhile_append_all isDecDigit (formatNat_all_digits v) hrest
  unfold leadingInt
  rw [ht, hd]
  dsimp only
  rw [decVal_formatNat]
  rw [if_neg (by omega)]

theorem leadingFraction_digits (ds rest : List Char) (hds : ds.all isDecDigit = true)
    (hlen : ds.length ≤ 9) (hrest : rest.takeWhile isDecDigit = []) :
    leadingFraction (ds ++ rest) = (decVal ds, 10 ^ ds.length, rest) := by
  obtain ⟨ht, hd⟩ := takeWhile_append_all isDecDigit hds hrest
  unfold leadingFraction
  rw [ht, hd]
  dsimp only
  suffices h : ∀ (l : List Char) (x sc : Nat), l.all isDecDigit = true →
      x < sc → sc * 10 ^ l.length ≤ 2 ^ 63 →
      l.foldl (fun (acc : Nat × Nat) (c : Char) =>
        if acc.2 > 2 ^ 63 / 10 then (acc.1, acc.2)
        else if acc.1 * 10 + (c.toNat - 48) > 2 ^ 63 then (acc.1, acc.2)
        else (acc.1 * 10 + (c.toNat - 48), acc.2 * 10)) (x, sc) =
        (x * 10 ^ l.length + decVal l, sc * 10 ^ l.length) by
    have h10 : (10 : Nat) ^ ds.length ≤ 10 ^ 9 :=
      Nat.pow_le_pow_right (by norm_num) hlen
    have := h ds 0 1 hds (by omega) (by omega)
    rw [this]
    simp [decVal]
  intro l
  induction l with
  | nil =>
    intro x sc _ _ _
    simp [decVal]
  | cons c tl ih =>
    intro x sc hall hx hsc
    simp only [List.all_cons, Bool.and_eq_true] at hall
    have hdigc : c.toNat - 48 ≤ 9 := by
      have := hall.1
      simp only [isDecDigit, Bool.and_eq_true, decide_eq_true_eq] at this
      omega
    have hlt : sc * 10 ≤ 2 ^ 63 := by
      have h1 : sc * 10 ≤ sc * 10 ^ (c :: tl).length := by
        have : (10 : Nat) ≤ 10 ^ (c :: tl).length := by
          have : 1 ≤ tl.length + 1 := by omega
          calc (10 : Nat) = 10 ^ 1 := by norm_num
          _ ≤ 10 ^ (tl.length + 1) := Nat.pow_le_pow_right (by norm_num) this
        exact Nat.mul_le_mul_left sc this
      simp only [List.length_cons] at hsc h1 ⊢
      omega
    simp only [List.foldl_cons]
    rw [if_neg (by omega)]
    rw [if_neg (by
      have : x * 10 + (c.toNat - 48) < sc * 10 := by omega
      omega)]
    rw [ih (x * 10 + (c.toNat - 48)) (sc * 10) hall.2 (by omega)
      (by
        simp only [List.length_cons] at hsc
        have : sc * 10 * 10 ^ tl.length = sc * 10 ^ (tl.length + 1) := by ring
        omega)]
    have hdecVal : decVal (c :: tl) = (c.toNat - 48) * 10 ^ tl.length + decVal tl := by
      show List.foldl (fun a c => a * 10 + (c.toNat - 48)) 0 (c :: tl) = _
      rw [List.foldl_cons, decVal_foldl_init]
      norm_num
    simp only [List.length_cons, hdecVal]
    rw [Prod.mk.injEq]
    exact ⟨by ring, by ring⟩

theorem dropTrailingZeros_decomp (l : List Char) :
    ∃ k, l = dropTrailingZeros l ++ List.replicate k '0' ∧
      (dropTrailingZeros l).length + k = l.length := by
  refine ⟨(l.reverse.takeWhile (fun c => c = '0')).length, ?_, ?_⟩
  · conv_lhs => rw [← l.reverse_reverse,
      ← List.takeWhile_append_dropWhile (p := fun c => decide (c = '0')) (l := l.reverse)]
    rw [List.reverse_append]
    unfold dropTrailingZeros
    congr 1
    have hmem : ∀ b ∈ (l.reverse.takeWhile (fun c => c = '0')).reverse, b = '0' := by
      intro b hb
      rw [List.mem_reverse] at hb
      have := List.mem_takeWhile_imp hb
      simpa using this
    exact List.eq_replicate_iff.mpr ⟨by simp, hmem⟩
  · have hlen := congrArg List.length
      (List.takeWhile_append_dropWhile (p := fun c => decide (c = '0')) (l := l.reverse))
    simp only [List.length_append, List.length_reverse] at hlen
    unfold dropTrailingZeros
    simp only [List.length_reverse]
    omega

theorem dtz_pad (prec frac : Nat) (hp : 1 ≤ prec) (hfrac : frac < 10 ^ prec) (hne : frac ≠ 0) :
    ∃ k, (dropTrailingZeros (padDecimal prec frac)).all isDecDigit = true ∧
      dropTrailingZeros (padDecimal prec frac) ≠ [] ∧
      (dropTrailingZeros (padDecimal prec frac)).length + k = prec ∧
      decVal (dropTrailingZeros (padDecimal prec frac)) * 10 ^ k = frac := by
  obtain ⟨k, hsplit, hlen⟩ := dropTrailingZeros_decomp (padDecimal prec frac)
  have hplen : (padDecimal prec frac).length = prec := padDecimal_length hfrac hp
  have hpall : (padDecimal prec frac).all isDecDigit = true := padDecimal_all_digits prec frac
  have hpval : decVal (padDecimal prec frac) = frac := decVal_padDecimal prec frac
  refine ⟨k, ?_, ?_, by omega, ?_⟩
  · rw [hsplit, List.all_append, Bool.and_eq_true] at hpall
    exact hpall.1
  · intro hcon
    rw [hsplit, hcon, List.nil_append] at hpval
    rw [decVal_replicate_zero] at hpval
    exact hne hpval.symm
  · rw [hsplit, decVal_append, decVal_replicate_zero, List.length_replicate] at hpval
    omega

theorem takeWhile_unit_format (v : Nat) (X : List Char) :
    (formatNat v ++ X).takeWhile isUnitChar = [] := by
  cases hf : formatNat v with
  | nil => exact absurd hf (formatNat_ne_nil v)
  | cons c0 ftl =>
    have hall := formatNat_all_digits v
    rw [hf, List.all_cons, Bool.and_eq_true] at hall
    show ((c0 :: ftl) ++ X).takeWhile isUnitChar = []
    apply takeWhile_nil_of_head_false
    simp only [isUnitChar, hall.1, or_true, not_true, decide_eq_false_iff_not]
    simp [hall.1]

theorem pdl_nil (fuel d : Nat) : parseDurationLoop (fuel + 1) [] d = some d := rfl

theorem pdl_step_nofrac (fuel v unit dacc : Nat) (u0 : Char) (utl rest : List Char)
    (hu : unitMap (u0 :: utl) = some unit)
    (huall : (u0 :: utl).all isUnitChar = true)
    (hrest : rest.takeWhile isUnitChar = [])
    (hunit : 1 ≤ unit)
    (hvu : v * unit ≤ 2 ^ 63)
    (hdd : dacc + v * unit ≤ 2 ^ 63) :
    parseDurationLoop (fuel + 1) (formatNat v ++ (u0 :: (utl ++ rest))) dacc =
      parseDurationLoop fuel rest (dacc + v * unit) := by
  have hv63 : v ≤ 2 ^ 63 := by
    have := Nat.le_mul_of_pos_right v hunit
    omega
  have hX : (u0 :: (utl ++ rest)).takeWhile isDecDigit = [] :=
    unit_head_not_digit huall (List.cons_ne_nil u0 utl) rest
  have hli : leadingInt (formatNat v ++ (u0 :: (utl ++ rest))) =
      some (v, u0 :: (utl ++ rest)) := leadingInt_format v hv63 _ hX
  have hu0 : isUnitChar u0 = true := by
    rw [List.all_cons, Bool.and_eq_true] at huall
    exact huall.1
  have hdot : ¬ (u0 = '.') := by
    intro hcon
    rw [hcon] at hu0
    exact absurd hu0 (by decide)
  cases hf : formatNat v with
  | nil => exact absurd hf (formatNat_ne_nil v)
  | cons c0 ftl =>
    have hall := formatNat_all_digits v
    rw [hf, List.all_cons, Bool.and_eq_true] at hall
    rw [hf] at hli
    rw [List.cons_append]
    rw [parseDurationLoop]
    rw [if_neg (by simp [hall.1])]
    rw [← List.cons_append, hli]
    dsimp only
    rw [if_neg hdot]
    dsimp only
    rw [if_neg (by
      simp only [List.length_cons, List.length_append, decide_eq_true_eq, not_and, not_not]
      intro hcon
      omega)]
    rw [← List.cons_append,
      (takeWhile_append_all isUnitChar huall hrest).1,
      (takeWhile_append_all isUnitChar huall hrest).2]
    rw [if_neg (List.cons_ne_nil u0 utl), hu]
    dsimp only
    have hvd : v ≤ 2 ^ 63 / unit := (Nat.le_div_iff_mul_le hunit).mpr hvu
    rw [if_neg (not_lt.mpr hvd)]
    rw [if_neg (lt_irrefl 0)]
    rw [if_neg (not_lt.mpr hvu)]
    rw [if_neg (not_lt.mpr hdd)]

theorem pdl_step_frac (fuel v unit dacc : Nat) (ds : List Char) (u0 : Char)
    (utl rest : List Char)
    (hu : unitMap (u0 :: utl) = some unit)
    (huall : (u0 :: utl).all isUnitChar = true)
    (hrest : rest.takeWhile isUnitChar = [])
    (hds : ds.all isDecDigit = true)
    (hdslen : ds.length ≤ 9)
    (hfpos : 0 < decVal ds)
    (hunit : 1 ≤ unit)
    (hvu : v * unit ≤ 2 ^ 63)
    (hv2 : v * unit + decVal ds * unit / 10 ^ ds.length ≤ 2 ^ 63)
    (hdd : dacc + (v * unit + decVal ds * unit / 10 ^ ds.length) ≤ 2 ^ 63) :
    parseDurationLoop (fuel + 1)
        (formatNat v ++ ('.' :: (ds ++ (u0 :: (utl ++ rest))))) dacc =
      parseDurationLoop fuel rest
        (dacc + (v * unit + decVal ds * unit / 10 ^ ds.length)) := by
  have hv63 : v ≤ 2 ^ 63 := by
    have := Nat.le_mul_of_pos_right v hunit
    omega
  have hX : ('.' :: (ds ++ (u0 :: (utl ++ rest)))).takeWhile isDecDigit = [] :=
    takeWhile_nil_of_head_false isDecDigit '.' _ (by decide)
  have hli : leadingInt (formatNat v ++ ('.' :: (ds ++ (u0 :: (utl ++ rest))))) =
      some (v, '.' :: (ds ++ (u0 :: (utl ++ rest)))) := leadingInt_format v hv63 _ hX
  have hY : (u0 :: (utl ++ rest)).takeWhile isDecDigit = [] :=
    unit_head_not_digit huall (List.cons_ne_nil u0 utl) rest
  have hlf : leadingFraction (ds ++ (u0 :: (utl ++ rest))) =
      (decVal ds, 10 ^ ds.length, u0 :: (utl ++ rest)) :=
    leadingFraction_digits ds _ hds hdslen hY
  cases hf : formatNat v with
  | nil => exact absurd hf (formatNat_ne_nil v)
  | cons c0 ftl =>
    have hall := formatNat_all_digits v
    rw [hf, List.all_cons, Bool.and_eq_true] at hall
    rw [hf] at hli
    rw [List.cons_append]
    rw [parseDurationLoop]
    rw [if_neg (by simp [hall.1])]
    rw [← List.cons_append, hli]
    dsimp only
    rw [if_pos rfl, hlf]
    dsimp only
    rw [if_neg (by
      simp only [List.length_cons, List.length_append, decide_eq_true_eq, not_and, not_not]
      intro hcon
      omega)]
    rw [← List.cons_append,
      (takeWhile_append_all isUnitChar huall hrest).1,
      (takeWhile_append_all isUnitChar huall hrest).2]
    rw [if_neg (List.cons_ne_nil u0 utl), hu]
    dsimp only
    have hvd : v ≤ 2 ^ 63 / unit := (Nat.le_div_iff_mul_le hunit).mpr hvu
    rw [if_neg (not_lt.mpr hvd)]
    rw [if_pos hfpos]
    rw [if_neg (not_lt.mpr hv2)]
    rw [if_neg (not_lt.mpr hdd)]

theorem pdl_mono_step (f : Nat) :
    ∀ cs d r, parseDurationLoop f cs d = some r →
      parseDurationLoop (f + 1) cs d = some r := by
  induction f with
  | zero =>
    intro cs d r h
    exact absurd h (by simp [parseDurationLoop])
  | succ g ih =>
    intro cs d r h
    cases cs with
    | nil => exact h
    | cons c cs0 =>
      rw [parseDurationLoop] at h ⊢
      by_cases hc : ¬ (c = '.' ∨ isDecDigit c)
      · rw [if_pos hc] at h
        exact absurd h (by simp)
      · rw [if_neg hc] at h ⊢
        rcases hli : leadingInt (c :: cs0) with _ | ⟨v, s1⟩
        · rw [hli] at h
          exact absurd h (by simp)
        · rw [hli] at h
          dsimp only at h ⊢
          cases s1 with
          | nil =>
            dsimp only at h ⊢
            rw [if_neg (fun hcon => hcon.1 (decide_eq_true (by simp)))] at h ⊢
            rw [if_pos List.takeWhile_nil] at h
            exact absurd h (by simp)
          | cons c1 tl =>
            dsimp only at h ⊢
            by_cases hdot : c1 = '.'
            · rw [if_pos hdot] at h ⊢
              rcases hlf : leadingFraction tl with ⟨ff, sc, r2⟩
              rw [hlf] at h
              dsimp only at h ⊢
              by_cases hcond : ¬(decide ((c1 :: tl).length ≠ (c :: cs0).length) = true) ∧
                  ¬(decide (r2.length ≠ tl.length) = true)
              · rw [if_pos hcond] at h
                exact absurd h (by simp)
              · rw [if_neg hcond] at h ⊢
                by_cases hu : r2.takeWhile isUnitChar = []
                · rw [if_pos hu] at h
                  exact absurd h (by simp)
                · rw [if_neg hu] at h ⊢
                  rcases humap : unitMap (r2.takeWhile isUnitChar) with _ | unit
                  · rw [humap] at h
                    exact absurd h (by simp)
                  · rw [humap] at h
                    dsimp only at h ⊢
                    by_cases hv : v > 2 ^ 63 / unit
                    · rw [if_pos hv] at h
                      exact absurd h (by simp)
                    · rw [if_neg hv] at h ⊢
                      by_cases hv2 : (if ff > 0 then v * unit + ff * unit / sc
                          else v * unit) > 2 ^ 63
                      · rw [if_pos hv2] at h
                        exact absurd h (by simp)
                      · rw [if_neg hv2] at h ⊢
                        by_cases hd1 : d + (if ff > 0 then v * unit + ff * unit / sc
                            else v * unit) > 2 ^ 63
                        · rw [if_pos hd1] at h
                          exact absurd h (by simp)
                        · rw [if_neg hd1] at h ⊢
                          exact ih _ _ _ h
            · rw [if_neg hdot] at h ⊢
              dsimp only at h ⊢
              by_cases hcond : ¬(decide ((c1 :: tl).length ≠ (c :: cs0).length) = true) ∧
                  ¬(false = true)
              · rw [if_pos hcond] at h
                exact absurd h (by simp)
              · rw [if_neg hcond] at h ⊢
                by_cases hu : (c1 :: tl).takeWhile isUnitChar = []
                · rw [if_pos hu] at h
                  exact absurd h (by simp)
                · rw [if_neg hu] at h ⊢
                  rcases humap : unitMap ((c1 :: tl).takeWhile isUnitChar) with _ | unit
                  · rw [humap] at h
                    exact absurd h (by simp)
                  · rw [humap] at h
                    dsimp only at h ⊢
                    by_cases hv : v > 2 ^ 63 / unit
                    · rw [if_pos hv] at h
                      exact absurd h (by simp)
                    · rw [if_neg hv] at h ⊢
                      rw [if_neg (lt_irrefl 0)] at h ⊢
                      by_cases hv2 : v * unit > 2 ^ 63
                      · rw [if_pos hv2] at h
                        exact absurd h (by simp)
                      · rw [if_neg hv2] at h ⊢
                        by_cases hd1 : d + v * unit > 2 ^ 63
                        · rw [if_pos hd1] at h
                          exact absurd h (by simp)
                        · rw [if_neg hd1] at h ⊢
                          exact ih _ _ _ h

theorem pdl_mono {f f2 : Nat} (hle : f ≤ f2) :
    ∀ cs d r, parseDurationLoop f cs d = some r → parseDurationLoop f2 cs d = some r := by
  induction hle with
  | refl => exact fun cs d r h => h
  | step h2 ih =>
    intro cs d r h
    exact pdl_mono_step _ _ _ _ (ih cs d r h)

theorem frac_contrib (ds : List Char) (k prec : Nat) (hk : ds.length + k = prec) :
    decVal ds * 10 ^ prec / 10 ^ ds.length = decVal ds * 10 ^ k := by
  rw [← hk, pow_add]
  rw [show decVal ds * (10 ^ ds.length * 10 ^ k) =
    decVal ds * 10 ^ k * 10 ^ ds.length from by ring]
  exact Nat.mul_div_cancel _ (pow_pos (by norm_num) ds.length)

theorem pdl_fmtFrac_step (fuel x prec dacc : Nat) (fr : List Char) (v : Nat)
    (hff : fmtFrac x prec = (fr, v)) (u0 : Char) (utl rest : List Char)
    (hu : unitMap (u0 :: utl) = some (10 ^ prec))
    (huall : (u0 :: utl).all isUnitChar = true)
    (hrest : rest.takeWhile isUnitChar = [])
    (hp : 1 ≤ prec) (hprec : prec ≤ 9)
    (hdd : dacc + x ≤ 2 ^ 63) :
    parseDurationLoop (fuel + 1) (formatNat v ++ (fr ++ (u0 :: (utl ++ rest)))) dacc =
      parseDurationLoop fuel rest (dacc + x) := by
  have hpow : (0 : Nat) < 10 ^ prec := pow_pos (by norm_num) prec
  have hxlow : (x / 10 ^ prec) * 10 ^ prec ≤ x := Nat.div_mul_le_self x _
  have hvu : (x / 10 ^ prec) * 10 ^ prec ≤ 2 ^ 63 := le_trans hxlow (by omega)
  by_cases hfz : x % 10 ^ prec = 0
  · simp only [fmtFrac, hfz, if_pos] at hff
    rw [Prod.mk.injEq] at hff
    obtain ⟨hfr, hv⟩ := hff
    subst hfr hv
    rw [List.nil_append]
    rw [pdl_step_nofrac fuel (x / 10 ^ prec) (10 ^ prec) dacc u0 utl rest hu huall
      hrest hpow hvu (le_trans (Nat.add_le_add_left hxlow dacc) hdd)]
    rw [Nat.div_mul_cancel (Nat.dvd_of_mod_eq_zero hfz)]
  · have hfrac_lt : x % 10 ^ prec < 10 ^ prec := Nat.mod_lt _ hpow
    obtain ⟨k, hall, hne, hklen, hkval⟩ := dtz_pad prec (x % 10 ^ prec) hp hfrac_lt hfz
    simp only [fmtFrac, hfz, if_neg, if_false] at hff
    rw [Prod.mk.injEq] at hff
    obtain ⟨hfr, hv⟩ := hff
    subst hv
    rw [← hfr, List.cons_append]
    have hfpos : 0 < decVal (dropTrailingZeros (padDecimal prec (x % 10 ^ prec))) := by
      rcases Nat.eq_zero_or_pos (decVal (dropTrailingZeros (padDecimal prec (x % 10 ^ prec))))
        with h0 | hpos
      · exfalso
        apply hfz
        rw [← hkval, h0, zero_mul]
      · exact hpos
    have hcontrib : decVal (dropTrailingZeros (padDecimal prec (x % 10 ^ prec))) *
        10 ^ prec / 10 ^ (dropTrailingZeros (padDecimal prec (x % 10 ^ prec))).length =
        x % 10 ^ prec := by
      rw [frac_contrib _ k prec hklen, hkval]
    have hxeq : (x / 10 ^ prec) * 10 ^ prec + x % 10 ^ prec = x := by
      rw [mul_comm]
      exact Nat.div_add_mod x _
    rw [pdl_step_frac fuel (x / 10 ^ prec) (10 ^ prec) dacc _ u0 utl rest hu huall hrest
      hall (by omega) hfpos hpow hvu (by rw [hcontrib, hxeq]; omega)
      (by rw [hcontrib, hxeq]; exact hdd)]
    rw [hcontrib, hxeq]

theorem fmtFrac_snd (x p : Nat) : (fmtFrac x p).2 = x / 10 ^ p := by
  unfold fmtFrac
  dsimp only
  split <;> rfl

theorem fmtFrac_shift (x A prec : Nat) :
    fmtFrac (A * 10 ^ prec + x % 10 ^ prec) prec = ((fmtFrac x prec).1, A) := by
  have hpow : (0 : Nat) < 10 ^ prec := pow_pos (by norm_num) prec
  have hmod : (A * 10 ^ prec + x % 10 ^ prec) % 10 ^ prec = x % 10 ^ prec := by
    rw [add_comm, Nat.add_mul_mod_self_right]
    exact Nat.mod_eq_of_lt (Nat.mod_lt _ hpow)
  have hdiv : (A * 10 ^ prec + x % 10 ^ prec) / 10 ^ prec = A := by
    rw [add_comm, Nat.add_mul_div_right _ _ hpow, Nat.div_eq_of_lt (Nat.mod_lt _ hpow)]
    omega
  unfold fmtFrac
  dsimp only
  rw [hmod, hdiv]
  split <;> rfl

theorem pdl_step_nofrac2 (fuel v unit dacc : Nat) (u0 : Char) (utl rest : List Char)
    (hu : unitMap (u0 :: utl) = some unit)
    (huall : (u0 :: utl).all isUnitChar = true)
    (hrest : rest.takeWhile isUnitChar = [])
    (hunit : 1 ≤ unit)
    (hvu : v * unit ≤ 2 ^ 63)
    (hdd : dacc + v * unit ≤ 2 ^ 63) :
    parseDurationLoop (fuel + 1) (formatNat v ++ ((u0 :: utl) ++ rest)) dacc =
      parseDurationLoop fuel rest (dacc + v * unit) := by
  rw [List.cons_append]
  exact pdl_step_nofrac fuel v unit dacc u0 utl rest hu huall hrest hunit hvu hdd

theorem pdl_nofrac_last (fuel v unit dacc : Nat) (u0 : Char) (utl : List Char)
    (hu : unitMap (u0 :: utl) = some unit)
    (huall : (u0 :: utl).all isUnitChar = true)
    (hunit : 1 ≤ unit)
    (hvu : v * unit ≤ 2 ^ 63)
    (hdd : dacc + v * unit ≤ 2 ^ 63) :
    parseDurationLoop (fuel + 1) (formatNat v ++ (u0 :: utl)) dacc =
      parseDurationLoop fuel [] (dacc + v * unit) := by
  have h := pdl_step_nofrac fuel v unit dacc u0 utl [] hu huall rfl hunit hvu hdd
  rw [List.append_nil] at h
  exact h

theorem pdl_fmtFrac_last (fuel x prec dacc : Nat) (fr : List Char) (v : Nat)
    (hff : fmtFrac x prec = (fr, v)) (u0 : Char) (utl : List Char)
    (hu : unitMap (u0 :: utl) = some (10 ^ prec))
    (huall : (u0 :: utl).all isUnitChar = true)
    (hp : 1 ≤ prec) (hprec : prec ≤ 9)
    (hdd : dacc + x ≤ 2 ^ 63) :
    parseDurationLoop (fuel + 1) (formatNat v ++ (fr ++ (u0 :: utl))) dacc =
      parseDurationLoop fuel [] (dacc + x) := by
  have h := pdl_fmtFrac_step fuel x prec dacc fr v hff u0 utl [] hu huall rfl hp hprec hdd
  rw [List.append_nil] at h
  exact h

theorem durationBody_len2 (u : Nat) : 2 ≤ (durationBody u).length := by
  unfold durationBody
  by_cases h9 : u < 10 ^ 9
  · rw [if_pos h9]
    by_cases h0 : u = 0
    · rw [if_pos h0]
      decide
    · rw [if_neg h0]
      by_cases h3 : u < 10 ^ 3
      · rw [if_pos h3]
        simp only [List.length_append, List.length_cons, List.length_nil]
        omega
      · rw [if_neg h3]
        by_cases h6 : u < 10 ^ 6
        · rw [if_pos h6]
          rcases hff : fmtFrac u 3 with ⟨fr, w⟩
          dsimp only
          simp only [List.length_append, List.length_cons, List.length_nil]
          omega
        · rw [if_neg h6]
          rcases hff : fmtFrac u 6 with ⟨fr, w⟩
          dsimp only
          simp only [List.length_append, List.length_cons, List.length_nil]
          omega
  · rw [if_neg h9]
    rcases hff : fmtFrac u 9 with ⟨fr, sec0⟩
    dsimp only
    by_cases hm : sec0 / 60 = 0
    · rw [if_pos hm]
      have hp := List.length_pos.mpr (formatNat_ne_nil (sec0 % 60))
      simp only [List.length_append, List.length_cons, List.length_nil]
      omega
    · rw [if_neg hm]
      by_cases hh : sec0 / 60 / 60 = 0
      · rw [if_pos hh]
        simp only [List.length_append, List.length_cons, List.length_nil]
        omega
      · rw [if_neg hh]
        simp only [List.length_append, List.length_cons, List.length_nil]
        omega

theorem durationBody_head (u : Nat) :
    ∃ c0 btl, durationBody u = c0 :: btl ∧ isDecDigit c0 = true := by
  have hfh : ∀ (x : Nat) (rest : List Char), ∃ c0 btl,
      formatNat x ++ rest = c0 :: btl ∧ isDecDigit c0 = true := by
    intro x rest
    cases hf : formatNat x with
    | nil => exact absurd hf (formatNat_ne_nil x)
    | cons c ftl =>
      have hall := formatNat_all_digits x
      rw [hf, List.all_cons, Bool.and_eq_true] at hall
      exact ⟨c, ftl ++ rest, rfl, hall.1⟩
  unfold durationBody
  by_cases h9 : u < 10 ^ 9
  · rw [if_pos h9]
    by_cases h0 : u = 0
    · rw [if_pos h0]
      exact ⟨'0', ['s'], rfl, by decide⟩
    · rw [if_neg h0]
      by_cases h3 : u < 10 ^ 3
      · rw [if_pos h3]
        exact hfh u ['n', 's']
      · rw [if_neg h3]
        by_cases h6 : u < 10 ^ 6
        · rw [if_pos h6]
          rcases hff : fmtFrac u 3 with ⟨fr, w⟩
          dsimp only
          rw [List.append_assoc]
          exact hfh w (fr ++ ['µ', 's'])
        · rw [if_neg h6]
          rcases hff : fmtFrac u 6 with ⟨fr, w⟩
          dsimp only
          rw [List.append_assoc]
          exact hfh w (fr ++ ['m', 's'])
  · rw [if_neg h9]
    rcases hff : fmtFrac u 9 with ⟨fr, sec0⟩
    dsimp only
    by_cases hm : sec0 / 60 = 0
    · rw [if_pos hm]
      rw [List.append_assoc]
      exact hfh (sec0 % 60) (fr ++ ['s'])
    · rw [if_neg hm]
      by_cases hh : sec0 / 60 / 60 = 0
      · rw [if_pos hh]
        rw [List.append_assoc]
        exact hfh (sec0 / 60 % 60) (['m'] ++ (formatNat (sec0 % 60) ++ fr ++ ['s']))
      · rw [if_neg hh]
        rw [List.append_assoc]
        exact hfh (sec0 / 60 / 60)
          (['h'] ++ (formatNat (sec0 / 60 % 60) ++ ['m'] ++ (formatNat (sec0 % 60) ++ fr ++ ['s'])))

theorem pdl_durationBody (u : Nat) (hu0 : u ≠ 0) (hu63 : u ≤ 2 ^ 63) :
    ∀ fuel, (durationBody u).length < fuel →
      parseDurationLoop fuel (durationBody u) 0 = some u := by
  intro fuel hfuel
  unfold durationBody at hfuel ⊢
  by_cases h9 : u < 10 ^ 9
  · rw [if_pos h9, if_neg hu0] at hfuel ⊢
    by_cases h3 : u < 10 ^ 3
    · rw [if_pos h3] at hfuel ⊢
      simp only [List.length_append, List.length_cons, List.length_nil] at hfuel
      obtain ⟨g, rfl⟩ : ∃ g, fuel = g + 1 + 1 := ⟨fuel - 2, by omega⟩
      rw [pdl_nofrac_last (g + 1) u 1 0 'n' ['s'] rfl (by decide) (by norm_num)
        (by omega) (by omega)]
      rw [pdl_nil]
      congr 1
      omega
    · rw [if_neg h3] at hfuel ⊢
      by_cases h6 : u < 10 ^ 6
      · rw [if_pos h6] at hfuel ⊢
        rcases hff : fmtFrac u 3 with ⟨fr, w⟩
        rw [hff] at hfuel
        dsimp only at hfuel ⊢
        simp only [List.length_append, List.length_cons, List.length_nil] at hfuel
        rw [List.append_assoc]
        obtain ⟨g, rfl⟩ : ∃ g, fuel = g + 1 + 1 := ⟨fuel - 2, by omega⟩
        rw [pdl_fmtFrac_last (g + 1) u 3 0 fr w hff 'µ' ['s'] (by decide) (by decide)
          (by norm_num) (by norm_num) (by omega)]
        rw [pdl_nil]
        congr 1
        omega
      · rw [if_neg h6] at hfuel ⊢
        rcases hff : fmtFrac u 6 with ⟨fr, w⟩
        rw [hff] at hfuel
        dsimp only at hfuel ⊢
        simp only [List.length_append, List.length_cons, List.length_nil] at hfuel
        rw [List.append_assoc]
        obtain ⟨g, rfl⟩ : ∃ g, fuel = g + 1 + 1 := ⟨fuel - 2, by omega⟩
        rw [pdl_fmtFrac_last (g + 1) u 6 0 fr w hff 'm' ['s'] (by decide) (by decide)
          (by norm_num) (by norm_num) (by omega)]
        rw [pdl_nil]
        congr 1
        omega
  · rw [if_neg h9] at hfuel ⊢
    rcases hff : fmtFrac u 9 with ⟨fr, sec0⟩
    rw [hff] at hfuel
    dsimp only at hfuel ⊢
    have hsec : sec0 = u / 10 ^ 9 := by
      have h := fmtFrac_snd u 9
      rw [hff] at h
      exact h
    by_cases hm : sec0 / 60 = 0
    · rw [if_pos hm] at hfuel ⊢
      have hs60 : sec0 % 60 = sec0 := Nat.mod_eq_of_lt (by omega)
      rw [hs60] at hfuel ⊢
      simp only [List.length_append, List.length_cons, List.length_nil] at hfuel
      rw [List.append_assoc]
      obtain ⟨g, rfl⟩ : ∃ g, fuel = g + 1 + 1 := ⟨fuel - 2, by omega⟩
      rw [pdl_fmtFrac_last (g + 1) u 9 0 fr sec0 hff 's' [] (by decide) (by decide)
        (by norm_num) (by norm_num) (by omega)]
      rw [pdl_nil]
      congr 1
      omega
    · rw [if_neg hm] at hfuel ⊢
      by_cases hh : sec0 / 60 / 60 = 0
      · rw [if_pos hh] at hfuel ⊢
        have hm60 : sec0 / 60 % 60 = sec0 / 60 := Nat.mod_eq_of_lt (by omega)
        rw [hm60] at hfuel ⊢
        simp only [List.length_append, List.length_cons, List.length_nil] at hfuel
        have ha := List.length_pos.mpr (formatNat_ne_nil (sec0 / 60))
        have hb := List.length_pos.mpr (formatNat_ne_nil (sec0 % 60))
        rw [List.append_assoc]
        obtain ⟨g, rfl⟩ : ∃ g, fuel = g + 1 + 1 + 1 := ⟨fuel - 3, by omega⟩
        rw [pdl_step_nofrac2 (g + 1 + 1) (sec0 / 60) (60 * 10 ^ 9) 0 'm' []
          ((formatNat (sec0 % 60) ++ fr) ++ ['s']) (by decide) (by decide)
          (by rw [List.append_assoc]; exact takeWhile_unit_format _ _)
          (by norm_num) (by omega) (by omega)]
        rw [List.append_assoc]
        rw [pdl_fmtFrac_last (g + 1) ((sec0 % 60) * 10 ^ 9 + u % 10 ^ 9) 9
          (0 + sec0 / 60 * (60 * 10 ^ 9)) fr (sec0 % 60)
          (by rw [fmtFrac_shift, hff]) 's' [] (by decide) (by decide)
          (by norm_num) (by norm_num) (by omega)]
        rw [pdl_nil]
        congr 1
        omega
      · rw [if_neg hh] at hfuel ⊢
        simp only [List.length_append, List.length_cons, List.length_nil] at hfuel
        have ha := List.length_pos.mpr (formatNat_ne_nil (sec0 / 60 / 60))
        have hb := List.length_pos.mpr (formatNat_ne_nil (sec0 / 60 % 60))
        have hc := List.length_pos.mpr (formatNat_ne_nil (sec0 % 60))
        rw [List.append_assoc]
        obtain ⟨g, rfl⟩ : ∃ g, fuel = g + 1 + 1 + 1 + 1 := ⟨fuel - 4, by omega⟩
        rw [pdl_step_nofrac2 (g + 1 + 1 + 1) (sec0 / 60 / 60) (3600 * 10 ^ 9) 0 'h' []
          ((formatNat (sec0 / 60 % 60) ++ ['m']) ++ ((formatNat (sec0 % 60) ++ fr) ++ ['s']))
          (by decide) (by decide)
          (by rw [List.append_assoc]; exact takeWhile_unit_format _ _)
          (by norm_num) (by omega) (by omega)]
        rw [List.append_assoc]
        rw [pdl_step_nofrac2 (g + 1 + 1) (sec0 / 60 % 60) (60 * 10 ^ 9)
          (0 + sec0 / 60 / 60 * (3600 * 10 ^ 9)) 'm' []
          ((formatNat (sec0 % 60) ++ fr) ++ ['s']) (by decide) (by decide)
          (by rw [List.append_assoc]; exact takeWhile_unit_format _ _)
          (by norm_num) (by omega) (by omega)]
        rw [List.append_assoc]
        rw [pdl_fmtFrac_last (g + 1) ((sec0 % 60) * 10 ^ 9 + u % 10 ^ 9) 9
          (0 + sec0 / 60 / 60 * (3600 * 10 ^ 9) + sec0 / 60 % 60 * (60 * 10 ^ 9))
          fr (sec0 % 60)
          (by rw [fmtFrac_shift, hff]) 's' [] (by decide) (by decide)
          (by norm_num) (by norm_num) (by omega)]
        rw [pdl_nil]
        congr 1
        omega

theorem goParseDuration_durationString (d : Int)
    (h1 : -(2 ^ 63) ≤ d) (h2 : d < 2 ^ 63) :
    goParseDuration (durationString d) = some d := by
  by_cases hz : d = 0
  · subst hz
    rfl
  · have hu0 : d.natAbs ≠ 0 := by omega
    have hu63 : d.natAbs ≤ 2 ^ 63 := by omega
    have hlen2 := durationBody_len2 d.natAbs
    have hbody := pdl_durationBody d.natAbs hu0 hu63
    have hne0 : durationBody d.natAbs ≠ ['0'] := by
      intro hcon
      rw [hcon] at hlen2
      simp at hlen2
    have hnnil : durationBody d.natAbs ≠ [] := by
      intro hcon
      rw [hcon] at hlen2
      simp at hlen2
    unfold durationString
    dsimp only
    by_cases hneg : d < 0
    · rw [if_pos ⟨hneg, hu0⟩]
      unfold goParseDuration
      dsimp only
      rw [if_pos rfl]
      dsimp only
      rw [if_neg hne0, if_neg hnnil]
      rw [hbody ((durationBody d.natAbs).length + 1) (by omega)]
      dsimp only
      rw [if_pos rfl]
      exact congrArg some (by omega)
    · rw [if_neg (by simp [hneg])]
      obtain ⟨c0, btl, hbl, hdig⟩ := durationBody_head d.natAbs
      rw [hbl]
      unfold goParseDuration
      dsimp only
      have hdash : ¬(c0 = '-') := by
        intro hcon
        rw [hcon] at hdig
        exact absurd hdig (by decide)
      have hplus : ¬(c0 = '+') := by
        intro hcon
        rw [hcon] at hdig
        exact absurd hdig (by decide)
      rw [if_neg hdash, if_neg hplus]
      dsimp only
      rw [← hbl]
      rw [if_neg hne0, if_neg hnnil]
      rw [hbody ((durationBody d.natAbs).length + 1) (by omega)]
      dsimp only
      rw [if_neg (by simp)]
      rw [if_neg (show ¬ d.natAbs > 2 ^ 63 - 1 by omega)]
      exact congrArg some (by omega)

theorem isHexDigit_hexDigitChar {d : Nat} (h : d < 16) :
    isHexDigit (hexDigitChar d) = true := by
  interval_cases d <;> decide

theorem hexCharVal_hexDigitChar {d : Nat} (h : d < 16) :
    hexCharVal (hexDigitChar d) = d := by
  interval_cases d <;> decide

theorem hexVal_foldl_init (cs : List Char) (init : Nat) :
    cs.foldl (fun a c => a * 16 + hexCharVal c) init =
      init * 16 ^ cs.length + hexVal cs := by
  induction cs generalizing init with
  | nil => simp [hexVal]
  | cons c t ih =>
    simp only [List.foldl_cons, hexVal]
    rw [ih, ih (0 * 16 + hexCharVal c)]
    simp only [List.length_cons]
    ring

theorem hexVal_append (a b : List Char) :
    hexVal (a ++ b) = hexVal a * 16 ^ b.length + hexVal b := by
  unfold hexVal
  rw [List.foldl_append, hexVal_foldl_init]
  rfl

theorem formatHexGroup_eq (g : Nat) :
    formatHexGroup g =
      if g = 0 then ['0'] else (Nat.digits 16 g).reverse.map hexDigitChar := by
  unfold formatHexGroup
  by_cases h : g = 0
  · simp [h]
  · simp only [h, if_false]
    rw [digitsRev_eq_digits (by norm_num) g g le_rfl]

theorem hexVal_formatHexGroup (g : Nat) : hexVal (formatHexGroup g) = g := by
  rw [formatHexGroup_eq]
  by_cases h : g = 0
  · subst h
    decide
  · simp only [h, if_false]
    have key : ∀ L : List Nat, (∀ d ∈ L, d < 16) →
        hexVal (L.reverse.map hexDigitChar) = Nat.ofDigits 16 L := by
      intro L
      induction L with
      | nil => intro _; simp [hexVal, Nat.ofDigits]
      | cons d t ih =>
        intro hd
        have hdlt : d < 16 := hd d (List.mem_cons_self d t)
        have ht : ∀ x ∈ t, x < 16 := fun x hx => hd x (List.mem_cons_of_mem d hx)
        simp only [List.reverse_cons, List.map_append, List.map]
        rw [hexVal_append, ih ht]
        have hc : hexVal [hexDigitChar d] = d := by
          simp only [hexVal, List.foldl]
          rw [hexCharVal_hexDigitChar hdlt]
          omega
        rw [hc]
        simp only [List.length_map, List.length_cons, List.length_nil, Nat.ofDigits_cons]
        push_cast
        ring
    have hlt : ∀ d ∈ Nat.digits 16 g, d < 16 :=
      fun d hd => Nat.digits_lt_base (by norm_num) hd
    rw [key (Nat.digits 16 g) hlt, Nat.ofDigits_digits 16 g]

theorem formatHexGroup_all_hex (g : Nat) :
    (formatHexGroup g).all isHexDigit = true := by
  rw [formatHexGroup_eq]
  by_cases h : g = 0
  · simp only [h, if_true]
    decide
  · simp only [h, if_false, List.all_eq_true]
    intro c hc
    simp only [List.mem_map, List.mem_reverse] at hc
    obtain ⟨d, hd, rfl⟩ := hc
    exact isHexDigit_hexDigitChar (Nat.digits_lt_base (by norm_num) hd)

theorem formatHexGroup_ne_nil (g : Nat) : formatHexGroup g ≠ [] := by
  rw [formatHexGroup_eq]
  by_cases h : g = 0
  · simp [h]
  · simp only [h, if_false]
    intro hcon
    have h2 := Nat.digits_ne_nil_iff_ne_zero (b := 16) |>.mpr h
    simp only [List.map_eq_nil_iff, List.reverse_eq_nil_iff] at hcon
    exact h2 hcon

theorem parseV6Hex_format (g : Nat) (hg : g < 65536) (rest : List Char)
    (hrest : rest.takeWhile isHexDigit = []) :
    parseV6Hex (formatHexGroup g ++ rest) =
      some (g, (formatHexGroup g).length, rest) := by
  obtain ⟨ht, hd⟩ := takeWhile_append_all isHexDigit (formatHexGroup_all_hex g) hrest
  unfold parseV6Hex
  rw [ht, hd]
  dsimp only
  rw [hexVal_formatHexGroup]
  rw [if_neg (by omega)]

theorem groupBytes_ipGroups : ∀ (n : Nat) (bs : List Nat), bs.length = 2 * n →
    (∀ b ∈ bs, b < 256) →
    (ipGroups bs).flatMap (fun g => [g / 256, g % 256]) = bs := by
  intro n
  induction n with
  | zero =>
    intro bs h _
    cases bs with
    | nil => rfl
    | cons b r => simp at h
  | succ m ih =>
    intro bs hlen hall
    cases bs with
    | nil => simp at hlen
    | cons b0 r =>
      cases r with
      | nil =>
        simp only [List.length_cons, List.length_nil] at hlen
        omega
      | cons b1 tl =>
        show ((b0 * 256 + b1) :: ipGroups tl).flatMap (fun g => [g / 256, g % 256]) =
          b0 :: b1 :: tl
        rw [List.flatMap_cons]
        rw [ih tl (by simp only [List.length_cons] at hlen; omega)
          (fun b hb => hall b (by simp [hb]))]
        have hb0 : b0 < 256 := hall b0 (by simp)
        have hb1 : b1 < 256 := hall b1 (by simp)
        have h1 : (b0 * 256 + b1) / 256 = b0 := by omega
        have h2 : (b0 * 256 + b1) % 256 = b1 := by omega
        rw [h1, h2]
        rfl

theorem ipGroups_bound : ∀ (n : Nat) (bs : List Nat), bs.length = 2 * n →
    (∀ b ∈ bs, b < 256) → ∀ g ∈ ipGroups bs, g < 65536 := by
  intro n
  induction n with
  | zero =>
    intro bs h _
    cases bs with
    | nil => intro g hg; simp [ipGroups] at hg
    | cons b r => simp at h
  | succ m ih =>
    intro bs hlen hall
    cases bs with
    | nil => simp at hlen
    | cons b0 r =>
      cases r with
      | nil =>
        simp only [List.length_cons, List.length_nil] at hlen
        omega
      | cons b1 tl =>
        intro g hg
        rw [show ipGroups (b0 :: b1 :: tl) = (b0 * 256 + b1) :: ipGroups tl from rfl] at hg
        rcases List.mem_cons.mp hg with hg1 | hg2
        · have hb0 : b0 < 256 := hall b0 (by simp)
          have hb1 : b1 < 256 := hall b1 (by simp)
          omega
        · exact ih tl (by simp only [List.length_cons] at hlen; omega)
            (fun b hb => hall b (by simp [hb])) g hg2

theorem ipGroups_length : ∀ (n : Nat) (bs : List Nat), bs.length = 2 * n →
    (ipGroups bs).length = n := by
  intro n
  induction n with
  | zero =>
    intro bs h
    cases bs with
    | nil => rfl
    | cons b r => simp at h
  | succ m ih =>
    intro bs hlen
    cases bs with
    | nil => simp at hlen
    | cons b0 r =>
      cases r with
      | nil =>
        simp only [List.length_cons, List.length_nil] at hlen
        omega
      | cons b1 tl =>
        rw [show ipGroups (b0 :: b1 :: tl) = (b0 * 256 + b1) :: ipGroups tl from rfl]
        simp only [List.length_cons]
        rw [ih tl (by simp only [List.length_cons] at hlen; omega)]

theorem intercalate_single (x : List Char) : List.intercalate [':'] [x] = x := by
  simp [List.intercalate]

theorem intercalate_cons2 (x y : List Char) (tl : List (List Char)) :
    List.intercalate [':'] (x :: y :: tl) =
      x ++ ':' :: List.intercalate [':'] (y :: tl) := by
  unfold List.intercalate
  rw [List.intersperse_cons_cons]
  simp

theorem isHexDigit_ne (c : Char) (h : isHexDigit c = true) : c ≠ ':' ∧ c ≠ '.' := by
  constructor <;> intro hcon <;> rw [hcon] at h <;> exact absurd h (by decide)

theorem pv6_off_ne (g : Nat) : ¬ (formatHexGroup g).length = 0 :=
  fun hcon => formatHexGroup_ne_nil g (List.length_eq_zero.mp hcon)

theorem pv6_step (fuel : Nat) (g : Nat) (hg : g < 65536) (acc : List Nat)
    (hacc : acc.length < 16) (ell : Option Nat) (c2 : Char) (rtl2 : List Char)
    (hc2 : isHexDigit c2 = true) :
    parseV6Loop (fuel + 1) (formatHexGroup g ++ ':' :: c2 :: rtl2) acc ell =
      parseV6Loop fuel (c2 :: rtl2) (acc ++ [g / 256, g % 256]) ell := by
  rw [parseV6Loop]
  rw [if_neg (by omega)]
  rw [parseV6Hex_format g hg (':' :: c2 :: rtl2)
    (takeWhile_nil_of_head_false _ _ _ (by decide))]
  dsimp only
  rw [if_neg (pv6_off_ne g)]
  rw [if_neg (show ¬(':' = '.') by decide)]
  rw [if_pos rfl]
  rw [if_neg (List.cons_ne_nil c2 rtl2)]
  rw [if_neg (isHexDigit_ne c2 hc2).1]

theorem pv6_last (fuel g : Nat) (hg : g < 65536) (acc : List Nat)
    (hacc : acc.length < 16) (ell : Option Nat) :
    parseV6Loop (fuel + 1) (formatHexGroup g) acc ell =
      some (acc ++ [g / 256, g % 256], ell, []) := by
  rw [parseV6Loop]
  rw [if_neg (by omega)]
  have h := parseV6Hex_format g hg [] rfl
  rw [List.append_nil] at h
  rw [h]
  dsimp only
  rw [if_neg (pv6_off_ne g)]

theorem pv6_ell (fuel g : Nat) (hg : g < 65536) (acc : List Nat)
    (hacc : acc.length < 16) (more2 : List Char) :
    parseV6Loop (fuel + 1) (formatHexGroup g ++ ':' :: ':' :: more2) acc none =
      (if more2 = [] then
        some (acc ++ [g / 256, g % 256], some (acc ++ [g / 256, g % 256]).length, [])
       else parseV6Loop fuel more2 (acc ++ [g / 256, g % 256])
         (some (acc ++ [g / 256, g % 256]).length)) := by
  rw [parseV6Loop]
  rw [if_neg (by omega)]
  rw [parseV6Hex_format g hg (':' :: ':' :: more2)
    (takeWhile_nil_of_head_false _ _ _ (by decide))]
  dsimp only
  rw [if_neg (pv6_off_ne g)]
  rw [if_neg (show ¬(':' = '.') by decide)]
  rw [if_pos rfl]
  rw [if_neg (List.cons_ne_nil ':' more2)]
  rw [if_pos rfl]
  rw [if_neg (by simp)]

theorem intercalate_head (x : List Char) (hx : x ≠ []) (hall : x.all isHexDigit = true)
    (tl : List (List Char)) :
    ∃ c2 rtl2, List.intercalate [':'] (x :: tl) = c2 :: rtl2 ∧ isHexDigit c2 = true := by
  cases hf : x with
  | nil => exact absurd hf hx
  | cons c xr =>
    rw [hf, List.all_cons, Bool.and_eq_true] at hall
    cases tl with
    | nil =>
      rw [intercalate_single]
      exact ⟨c, xr, rfl, hall.1⟩
    | cons y tl2 =>
      rw [intercalate_cons2]
      exact ⟨c, xr ++ ':' :: List.intercalate [':'] (y :: tl2), rfl, hall.1⟩

theorem pv6_groups : ∀ (gs : List Nat) (fuel : Nat) (acc : List Nat) (ell : Option Nat),
    (∀ g ∈ gs, g < 65536) → gs ≠ [] →
    gs.length ≤ fuel → acc.length + 2 * gs.length ≤ 16 →
    parseV6Loop (fuel + 1) (List.intercalate [':'] (gs.map formatHexGroup)) acc ell =
      some (acc ++ gs.flatMap (fun g => [g / 256, g % 256]), ell, []) := by
  intro gs
  induction gs with
  | nil => intro _ _ _ _ hne _ _; exact absurd rfl hne
  | cons g tl ih =>
    intro fuel acc ell hall hne hfuel hcap
    simp only [List.length_cons] at hfuel hcap
    cases tl with
    | nil =>
      rw [List.map_cons, List.map_nil, intercalate_single]
      rw [pv6_last fuel g (hall g (by simp)) acc (by omega) ell]
      simp
    | cons g2 tl2 =>
      rw [List.map_cons, List.map_cons, intercalate_cons2]
      obtain ⟨c2, rtl2, hform, hc2⟩ := intercalate_head (formatHexGroup g2)
        (formatHexGroup_ne_nil g2) (formatHexGroup_all_hex g2) (tl2.map formatHexGroup)
      rw [hform]
      simp only [List.length_cons] at hfuel hcap
      obtain ⟨f, rfl⟩ : ∃ f, fuel = f + 1 := ⟨fuel - 1, by omega⟩
      rw [pv6_step (f + 1) g (hall g (by simp)) acc (by omega) ell c2 rtl2 hc2]
      have ihh := ih f (acc ++ [g / 256, g % 256]) ell
        (fun x hx => hall x (by simp [hx])) (List.cons_ne_nil g2 tl2)
        (by simp only [List.length_cons]; omega)
        (by simp only [List.length_cons, List.length_append]; simp; omega)
      rw [List.map_cons] at ihh
      rw [hform] at ihh
      rw [ihh]
      simp [List.flatMap_cons, List.append_assoc]

theorem pv6_groups_pre : ∀ (gs : List Nat) (fuel : Nat) (acc : List Nat)
    (suffix : List Char),
    (∀ g ∈ gs, g < 65536) → gs ≠ [] →
    gs.length ≤ fuel → acc.length + 2 * gs.length ≤ 16 →
    parseV6Loop (fuel + 1)
        (List.intercalate [':'] (gs.map formatHexGroup) ++ ':' :: ':' :: suffix) acc none =
      (if suffix = [] then
        some (acc ++ gs.flatMap (fun g => [g / 256, g % 256]),
          some (acc ++ gs.flatMap (fun g => [g / 256, g % 256])).length, [])
       else parseV6Loop (fuel - gs.length + 1) suffix
         (acc ++ gs.flatMap (fun g => [g / 256, g % 256]))
         (some (acc ++ gs.flatMap (fun g => [g / 256, g % 256])).length)) := by
  intro gs
  induction gs with
  | nil => intro _ _ _ _ hne; exact absurd rfl hne
  | cons g tl ih =>
    intro fuel acc suffix hall hne hfuel hcap
    simp only [List.length_cons] at hfuel hcap ⊢
    cases tl with
    | nil =>
      rw [List.map_cons, List.map_nil, intercalate_single]
      rw [pv6_ell fuel g (hall g (by simp)) acc (by omega) suffix]
      have hfm : (([g] : List Nat).flatMap (fun g => [g / 256, g % 256])) =
          [g / 256, g % 256] := by simp
      rw [hfm]
      by_cases hs : suffix = []
      · rw [if_pos hs, if_pos hs]
      · rw [if_neg hs, if_neg hs]
        congr 1
        simp only [List.length_nil]
        omega
    | cons g2 tl2 =>
      rw [List.map_cons, List.map_cons, intercalate_cons2]
      obtain ⟨c2, rtl2, hform, hc2⟩ := intercalate_head (formatHexGroup g2)
        (formatHexGroup_ne_nil g2) (formatHexGroup_all_hex g2) (tl2.map formatHexGroup)
      rw [List.append_assoc, List.cons_append, hform, List.cons_append]
      simp only [List.length_cons] at hfuel hcap
      obtain ⟨f, rfl⟩ : ∃ f, fuel = f + 1 := ⟨fuel - 1, by omega⟩
      rw [pv6_step (f + 1) g (hall g (by simp)) acc (by omega) none c2
        (rtl2 ++ ':' :: ':' :: suffix) hc2]
      have ihh := ih f (acc ++ [g / 256, g % 256]) suffix
        (fun x hx => hall x (by simp [hx])) (List.cons_ne_nil g2 tl2)
        (by simp only [List.length_cons]; omega)
        (by simp only [List.length_cons, List.length_append]; simp; omega)
      rw [List.map_cons] at ihh
      rw [hform] at ihh
      rw [List.cons_append] at ihh
      rw [ihh]
      by_cases hs : suffix = []
      · rw [if_pos hs, if_pos hs]
        simp [List.flatMap_cons, List.append_assoc]
      · rw [if_neg hs, if_neg hs]
        congr 1
        · simp only [List.length_cons]
          omega
        · simp [List.flatMap_cons, List.append_assoc]
        · simp [List.flatMap_cons, List.append_assoc]

theorem flatMap_pair_length (gs : List Nat) :
    (gs.flatMap (fun g => [g / 256, g % 256])).length = 2 * gs.length := by
  induction gs with
  | nil => rfl
  | cons g tl ih =>
    rw [List.flatMap_cons, List.length_append, ih]
    simp only [List.length_cons, List.length_nil]
    omega

theorem flatMap_replicate_zero (l : Nat) :
    (List.replicate l (0 : Nat)).flatMap (fun g => [g / 256, g % 256]) =
      List.replicate (2 * l) 0 := by
  induction l with
  | zero => rfl
  | succ k ih =>
    rw [List.replicate_succ, List.flatMap_cons, ih]
    rw [show 2 * (k + 1) = 2 * k + 1 + 1 from by omega]
    rw [List.replicate_succ, List.replicate_succ]
    rfl

theorem foldl_best_inv (f : Nat → Nat) : ∀ (is : List Nat) (a : Nat × Nat),
    (a.2 = 0 ∨ a.2 = f a.1) →
    ((is.foldl (fun acc i => if f i > acc.2 then (i, f i) else acc) a).2 = 0 ∨
     (is.foldl (fun acc i => if f i > acc.2 then (i, f i) else acc) a).2 =
       f (is.foldl (fun acc i => if f i > acc.2 then (i, f i) else acc) a).1) := by
  intro is
  induction is with
  | nil => intro a ha; exact ha
  | cons i tl ih =>
    intro a ha
    simp only [List.foldl_cons]
    apply ih
    by_cases hc : f i > a.2
    · rw [if_pos hc]
      right
      rfl
    · rw [if_neg hc]
      exact ha

theorem bestZeroRun_spec (gs : List Nat) (s l : Nat)
    (h : bestZeroRun gs = some (s, l)) :
    2 ≤ l ∧ l = ((gs.drop s).takeWhile (fun g => g = 0)).length := by
  unfold bestZeroRun at h
  dsimp only at h
  have hinv := foldl_best_inv (fun i => ((gs.drop i).takeWhile (fun g => g = 0)).length)
    (List.range gs.length) (0, 0) (Or.inl rfl)
  dsimp only at hinv
  split at h
  · rename_i hge
    injection h with h1
    rw [h1] at hge hinv
    simp only at hge hinv
    rcases hinv with h0 | hrun
    · omega
    · exact ⟨hge, hrun⟩
  · exact absurd h (by simp)

theorem zerorun_decomp (gs : List Nat) (s l : Nat) (hl2 : 2 ≤ l)
    (hl : l = ((gs.drop s).takeWhile (fun g => g = 0)).length) :
    gs = gs.take s ++ (List.replicate l 0 ++ gs.drop (s + l)) ∧ s + l ≤ gs.length := by
  have htw : (gs.drop s).takeWhile (fun g => g = 0) = List.replicate l 0 := by
    apply List.eq_replicate_iff.mpr
    refine ⟨hl.symm, ?_⟩
    intro b hb
    have := List.mem_takeWhile_imp hb
    simpa using this
  have hpref : (gs.drop s).take l = List.replicate l 0 := by
    have hp := List.takeWhile_prefix (l := gs.drop s) (p := fun g => decide (g = 0))
    rw [List.prefix_iff_eq_take] at hp
    rw [hl, ← hp, htw, List.length_replicate]
  have hlentw : ((gs.drop s).takeWhile (fun g => g = 0)).length ≤ (gs.drop s).length :=
    (List.takeWhile_prefix _).length_le
  rw [List.length_drop] at hlentw
  have hslen : s < gs.length := by
    by_contra hcon
    push_neg at hcon
    have hnil : gs.drop s = [] := List.drop_eq_nil_of_le hcon
    rw [hnil] at hl
    simp only [List.takeWhile_nil, List.length_nil] at hl
    omega
  constructor
  · conv_lhs => rw [← List.take_append_drop s gs]
    congr 1
    conv_lhs => rw [← List.take_append_drop l (gs.drop s)]
    rw [hpref, List.drop_drop]
  · omega

theorem inter_groups_head (gs : List Nat) (hne : gs ≠ []) :
    ∃ c1 rtl, List.intercalate [':'] (gs.map formatHexGroup) = c1 :: rtl ∧
      isHexDigit c1 = true := by
  cases gs with
  | nil => exact absurd rfl hne
  | cons g0 grest =>
    rw [List.map_cons]
    exact intercalate_head _ (formatHexGroup_ne_nil g0) (formatHexGroup_all_hex g0) _

theorem inter_groups_mem (gs : List Nat) :
    ∀ c ∈ List.intercalate [':'] (gs.map formatHexGroup),
      c = ':' ∨ isHexDigit c = true := by
  induction gs with
  | nil => intro c hc; simp [List.intercalate] at hc
  | cons g tl ih =>
    intro c hc
    cases tl with
    | nil =>
      rw [List.map_cons, List.map_nil, intercalate_single] at hc
      exact Or.inr (List.all_eq_true.mp (formatHexGroup_all_hex g) c hc)
    | cons g2 tl2 =>
      rw [List.map_cons, List.map_cons, intercalate_cons2] at hc
      rcases List.mem_append.mp hc with h1 | h2
      · exact Or.inr (List.all_eq_true.mp (formatHexGroup_all_hex g) c h1)
      · rcases List.mem_cons.mp h2 with h3 | h4
        · exact Or.inl h3
        · exact ih c (by rw [List.map_cons]; exact h4)

theorem find?_ipv6 (l : List Char) (hmem : ∀ c ∈ l, c = ':' ∨ isHexDigit c = true)
    (hcolon : ':' ∈ l) :
    l.find? (fun c => c = '.' ∨ c = ':') = some ':' := by
  rcases hf : l.find? (fun c => c = '.' ∨ c = ':') with _ | c
  · exfalso
    have := List.find?_eq_none.mp hf ':' hcolon
    simp at this
  · have hsat := List.find?_some hf
    have hmemc := List.mem_of_find?_eq_some hf
    simp only [decide_eq_true_eq] at hsat
    rcases hmem c hmemc with h1 | h2
    · rw [h1]
    · exfalso
      rcases hsat with hdot | hcol
      · rw [hdot] at h2
        exact absurd h2 (by decide)
      · rw [hcol] at h2
        exact absurd h2 (by decide)

theorem intercalate_nil : List.intercalate [':'] ([] : List (List Char)) = [] := by
  simp [List.intercalate]

theorem goParseIPv6Tail_none (s0 : List Char) (ell0 : Option Nat) (bytes : List Nat)
    (hloop : parseV6Loop 9 s0 [] ell0 = some (bytes, none, []))
    (hlen16 : bytes.length = 16) :
    goParseIPv6.goParseIPv6Tail s0 ell0 = some bytes := by
  unfold goParseIPv6.goParseIPv6Tail
  simp only [hloop]
  rw [if_neg (by simp), if_neg (by omega)]

theorem goParseIPv6Tail_some (s0 : List Char) (ell0 : Option Nat) (bytes : List Nat)
    (e : Nat) (hloop : parseV6Loop 9 s0 [] ell0 = some (bytes, some e, []))
    (hlt : bytes.length < 16) :
    goParseIPv6.goParseIPv6Tail s0 ell0 =
      some (bytes.take e ++ List.replicate (16 - bytes.length) 0 ++ bytes.drop e) := by
  unfold goParseIPv6.goParseIPv6Tail
  simp only [hloop]
  rw [if_neg (by simp), if_pos hlt]

theorem goParseIPv6_ipv6String (bs : List Nat) (hlen : bs.length = 16)
    (hall : ∀ b ∈ bs, b < 256) :
    goParseIPv6 (ipv6String bs) = some bs := by
  have hglen : (ipGroups bs).length = 8 := ipGroups_length 8 bs (by omega)
  have hgb : (ipGroups bs).flatMap (fun g => [g / 256, g % 256]) = bs :=
    groupBytes_ipGroups 8 bs (by omega) hall
  have hgbound : ∀ g ∈ ipGroups bs, g < 65536 := ipGroups_bound 8 bs (by omega) hall
  have hne : ipGroups bs ≠ [] := by
    intro hcon
    rw [hcon] at hglen
    simp at hglen
  unfold ipv6String
  dsimp only
  rcases hbzr : bestZeroRun (ipGroups bs) with _ | ⟨s, l⟩
  · dsimp only
    obtain ⟨c1, rtl, hform, hc1⟩ := inter_groups_head (ipGroups bs) hne
    rw [hform]
    rw [goParseIPv6.eq_def]
    dsimp only
    rw [if_neg (isHexDigit_ne c1 hc1).1]
    rw [← hform]
    have hloop : parseV6Loop 9
        (List.intercalate [':'] ((ipGroups bs).map formatHexGroup)) [] none =
        some ((ipGroups bs).flatMap (fun g => [g / 256, g % 256]), none, []) := by
      rw [show (9 : Nat) = 8 + 1 from rfl]
      have h := pv6_groups (ipGroups bs) 8 [] none hgbound hne (by omega)
        (by simp only [List.length_nil]; omega)
      rw [List.nil_append] at h
      exact h
    rw [goParseIPv6Tail_none _ _ _ hloop (by rw [flatMap_pair_length, hglen])]
    rw [hgb]
  · dsimp only
    obtain ⟨hl2, hl⟩ := bestZeroRun_spec (ipGroups bs) s l hbzr
    obtain ⟨hdecomp, hsl⟩ := zerorun_decomp (ipGroups bs) s l hl2 hl
    rw [hglen] at hsl
    have hPlen : ((ipGroups bs).take s).length = s := by
      rw [List.length_take, hglen]
      omega
    have hSlen : ((ipGroups bs).drop (s + l)).length = 8 - (s + l) := by
      rw [List.length_drop, hglen]
    have hPbound : ∀ g ∈ (ipGroups bs).take s, g < 65536 :=
      fun g hg => hgbound g (List.take_subset _ _ hg)
    have hSbound : ∀ g ∈ (ipGroups bs).drop (s + l), g < 65536 :=
      fun g hg => hgbound g (List.drop_subset _ _ hg)
    have hPflen : (((ipGroups bs).take s).flatMap
        (fun g => [g / 256, g % 256])).length = 2 * s := by
      rw [flatMap_pair_length, hPlen]
    have hSflen : (((ipGroups bs).drop (s + l)).flatMap
        (fun g => [g / 256, g % 256])).length = 2 * (8 - (s + l)) := by
      rw [flatMap_pair_length, hSlen]
    have hbs2 : bs = ((ipGroups bs).take s).flatMap (fun g => [g / 256, g % 256]) ++
        (List.replicate (2 * l) 0 ++
          ((ipGroups bs).drop (s + l)).flatMap (fun g => [g / 256, g % 256])) := by
      conv_lhs => rw [← hgb]
      conv_lhs => rw [hdecomp]
      rw [List.flatMap_append, List.flatMap_append, flatMap_replicate_zero]
    by_cases hs0 : s = 0
    · subst hs0
      rw [List.take_zero, List.map_nil, intercalate_nil, List.nil_append]
      rw [goParseIPv6.eq_def]
      dsimp only
      rw [if_pos rfl, if_pos rfl]
      by_cases hsuf : (ipGroups bs).drop (0 + l) = []
      · rw [hsuf, List.map_nil, intercalate_nil]
        rw [if_pos rfl]
        have hl8 : l = 8 := by
          have h := hSlen
          rw [hsuf] at h
          simp only [List.length_nil] at h
          omega
        have hbs16 : bs = List.replicate 16 0 := by
          rw [hbs2, hsuf]
          simp only [List.take_zero, List.flatMap_nil, List.nil_append, List.append_nil]
          rw [hl8]
        rw [hbs16]
      · obtain ⟨cx, rtlx, hformx, hcx⟩ := inter_groups_head _ hsuf
        have hXne : List.intercalate [':']
            (((ipGroups bs).drop (0 + l)).map formatHexGroup) ≠ [] := by
          rw [hformx]
          exact List.cons_ne_nil _ _
        rw [if_neg hXne]
        have hloop : parseV6Loop 9
            (List.intercalate [':'] (((ipGroups bs).drop (0 + l)).map formatHexGroup))
            [] (some 0) =
            some (((ipGroups bs).drop (0 + l)).flatMap
              (fun g => [g / 256, g % 256]), some 0, []) := by
          rw [show (9 : Nat) = 8 + 1 from rfl]
          have h := pv6_groups _ 8 [] (some 0) hSbound hsuf
            (by rw [hSlen]; omega) (by simp only [List.length_nil]; rw [hSlen]; omega)
          rw [List.nil_append] at h
          exact h
        rw [goParseIPv6Tail_some _ _ _ 0 hloop (by rw [hSflen]; omega)]
        rw [List.take_zero, List.drop_zero, List.nil_append]
        rw [hSflen]
        rw [show 16 - 2 * (8 - (0 + l)) = 2 * l from by omega]
        conv_rhs => rw [hbs2]
        simp only [List.take_zero, List.flatMap_nil, List.nil_append]
    · have hPne : (ipGroups bs).take s ≠ [] := by
        intro hcon
        rw [hcon] at hPlen
        simp only [List.length_nil] at hPlen
        omega
      obtain ⟨c1, rtl, hform, hc1⟩ := inter_groups_head _ hPne
      rw [hform, List.cons_append]
      rw [goParseIPv6.eq_def]
      dsimp only
      rw [if_neg (isHexDigit_ne c1 hc1).1]
      rw [← List.cons_append, ← hform]
      by_cases hsuf : (ipGroups bs).drop (s + l) = []
      · have hsl8 : s + l = 8 := by
          have h := hSlen
          rw [hsuf] at h
          simp only [List.length_nil] at h
          omega
        rw [hsuf, List.map_nil, intercalate_nil]
        have hloop : parseV6Loop 9
            (List.intercalate [':'] (((ipGroups bs).take s).map formatHexGroup) ++
              ':' :: ':' :: []) [] none =
            some (((ipGroups bs).take s).flatMap (fun g => [g / 256, g % 256]),
              some ((((ipGroups bs).take s).flatMap (fun g => [g / 256, g % 256])).length),
              []) := by
          rw [show (9 : Nat) = 8 + 1 from rfl]
          have h := pv6_groups_pre ((ipGroups bs).take s) 8 [] [] hPbound hPne
            (by rw [hPlen]; omega) (by simp only [List.length_nil]; rw [hPlen]; omega)
          rw [if_pos rfl] at h
          rw [h]
          simp only [List.nil_append]
        rw [goParseIPv6Tail_some _ _ _ _ hloop (by rw [hPflen]; omega)]
        rw [List.take_length, List.drop_length, List.append_nil]
        rw [hPflen]
        rw [show 16 - 2 * s = 2 * l from by omega]
        conv_rhs => rw [hbs2]
        simp only [hsuf, List.flatMap_nil, List.append_nil]
      · obtain ⟨cx, rtlx, hformx, hcx⟩ := inter_groups_head _ hsuf
        have hXne : List.intercalate [':']
            (((ipGroups bs).drop (s + l)).map formatHexGroup) ≠ [] := by
          rw [hformx]
          exact List.cons_ne_nil _ _
        have hloop : parseV6Loop 9
            (List.intercalate [':'] (((ipGroups bs).take s).map formatHexGroup) ++
              ':' :: ':' ::
                List.intercalate [':'] (((ipGroups bs).drop (s + l)).map formatHexGroup))
            [] none =
            some (((ipGroups bs).take s).flatMap (fun g => [g / 256, g % 256]) ++
                ((ipGroups bs).drop (s + l)).flatMap (fun g => [g / 256, g % 256]),
              some ((((ipGroups bs).take s).flatMap (fun g => [g / 256, g % 256])).length),
              []) := by
          rw [show (9 : Nat) = 8 + 1 from rfl]
          have h := pv6_groups_pre ((ipGroups bs).take s) 8 []
            (List.intercalate [':'] (((ipGroups bs).drop (s + l)).map formatHexGroup))
            hPbound hPne (by rw [hPlen]; omega)
            (by simp only [List.length_nil]; rw [hPlen]; omega)
          rw [if_neg hXne] at h
          rw [h]
          simp only [List.nil_append]
          rw [hPlen]
          have h2 := pv6_groups ((ipGroups bs).drop (s + l)) (8 - s)
            (((ipGroups bs).take s).flatMap (fun g => [g / 256, g % 256]))
            (some ((((ipGroups bs).take s).flatMap (fun g => [g / 256, g % 256])).length))
            hSbound hsuf (by rw [hSlen]; omega)
            (by rw [hPflen, hSlen]; omega)
          exact h2
        rw [goParseIPv6Tail_some _ _ _ _ hloop
          (by rw [List.length_append, hPflen, hSflen]; omega)]
        rw [List.take_left, List.drop_left]
        rw [List.length_append, hPflen, hSflen]
        rw [show 16 - (2 * s + 2 * (8 - (s + l))) = 2 * l from by omega]
        conv_rhs => rw [hbs2]
        rw [List.append_assoc]

theorem goIPString_v6 (bs : List Nat) (hlen : bs.length = 16)
    (hnotv4 : ¬ bs.take 12 = v4InV6Marker) :
    goIPString bs = ipv6String bs := by
  unfold goIPString
  rw [if_neg (by intro hcon; rw [hcon] at hlen; simp at hlen)]
  unfold ipTo4
  rw [if_neg (by omega)]
  rw [if_neg (by intro hcon; exact hnotv4 hcon.2)]
  dsimp only
  rw [if_neg (by omega)]

theorem ipv6String_mem (bs : List Nat) :
    ∀ c ∈ ipv6String bs, c = ':' ∨ isHexDigit c = true := by
  unfold ipv6String
  dsimp only
  rcases bestZeroRun (ipGroups bs) with _ | ⟨s, l⟩
  · exact inter_groups_mem _
  · dsimp only
    intro c hc
    rcases List.mem_append.mp hc with h1 | h2
    · exact inter_groups_mem _ c h1
    · rcases List.mem_cons.mp h2 with h3 | h4
      · exact Or.inl h3
      · rcases List.mem_cons.mp h4 with h5 | h6
        · exact Or.inl h5
        · exact inter_groups_mem _ c h6

theorem ipv6String_has_colon (bs : List Nat) (hlen : bs.length = 16) :
    ':' ∈ ipv6String bs := by
  have hglen : (ipGroups bs).length = 8 := ipGroups_length 8 bs (by omega)
  unfold ipv6String
  dsimp only
  rcases bestZeroRun (ipGroups bs) with _ | ⟨s, l⟩
  · cases hgs : ipGroups bs with
    | nil =>
      rw [hgs] at hglen
      simp at hglen
    | cons g0 tl =>
      cases tl with
      | nil =>
        rw [hgs] at hglen
        simp at hglen
      | cons g1 tl2 =>
        rw [List.map_cons, List.map_cons, intercalate_cons2]
        exact List.mem_append.mpr (Or.inr (List.mem_cons_self _ _))
  · dsimp only
    exact List.mem_append.mpr (Or.inr (List.mem_cons_self _ _))

theorem goParseIP_v6 (bs : List Nat) (hlen : bs.length = 16)
    (hall : ∀ b ∈ bs, b < 256) (hnotv4 : ¬ bs.take 12 = v4InV6Marker) :
    goParseIP (goIPString bs) = some bs := by
  rw [goIPString_v6 bs hlen hnotv4]
  unfold goParseIP
  rw [find?_ipv6 _ (ipv6String_mem bs) (ipv6String_has_colon bs hlen)]
  exact goParseIPv6_ipv6String bs hlen hall

/-- `net.IP.Equal`: structural at equal lengths; a 4-byte address equals
the 16-byte form carrying the IPv4-in-IPv6 marker and the same last four
bytes. -/
def ipEqual (ip x : List Nat) : Bool :=
  if ip.length = x.length then ip = x
  else if ip.length = 4 ∧ x.length = 16 then
    x.take 12 = v4InV6Marker ∧ ip = x.drop 12
  else if ip.length = 16 ∧ x.length = 4 then
    ip.take 12 = v4InV6Marker ∧ ip.drop 12 = x
  else false

theorem ipEqual_refl (bs : List Nat) : ipEqual bs bs = true := by
  unfold ipEqual
  rw [if_pos rfl]
  simp

theorem ipEqual_mapped (a b c d : Nat) :
    ipEqual (v4InV6Marker ++ [a, b, c, d]) [a, b, c, d] = true := by
  unfold ipEqual
  rw [if_neg (by simp [v4InV6Marker])]
  rw [if_neg (by simp [v4InV6Marker])]
  rw [if_pos (by simp [v4InV6Marker])]
  simp [v4InV6Marker]

theorem list_len4 (bs : List Nat) (h : bs.length = 4) :
    ∃ a b c d, bs = [a, b, c, d] := by
  rcases bs with _ | ⟨a, bs⟩
  · simp at h
  rcases bs with _ | ⟨b, bs⟩
  · simp at h
  rcases bs with _ | ⟨c, bs⟩
  · simp at h
  rcases bs with _ | ⟨d, bs⟩
  · simp at h
  rcases bs with _ | ⟨e, bs⟩
  · exact ⟨a, b, c, d, rfl⟩
  · simp only [List.length_cons] at h
    omega

/-- C1 counterexamples: the unqualified round trip `parse(format(v)) = v`
fails on `FieldItem.String`/`FieldItem.Set`.  (1) A `false` bool formats to
the empty string (it is the zero value), and setting the empty string on a
bool field stores `true`.  (2) A `*net.IPNet` field never gets its value
back: the CIDR branch binds `ni` to `net.ParseCIDR`'s error, so the valid
formatted text `10.0.0.0/8` is a silent no-op and the fresh field stays
nil.  (3) A timestamp with sub-second precision is truncated: RFC-3339
formatting drops the nanoseconds.  (4) A 4-byte IP comes back as the
16-byte IPv4-in-IPv6 form, so the stored bytes differ structurally (they
are equal only under `net.IP.Equal`). -/
theorem C1_counterexample :
    (fieldItemSet .tBool true (.vBool false) (fieldItemString (.vBool false)) =
        (.vBool true, none) ∧ GoValue.vBool true ≠ .vBool false) ∧
    (fieldItemSet .tIPNet true (zeroValue .tIPNet)
        (fieldItemString (.vIPNet [10, 0, 0, 0] [255, 0, 0, 0])) =
        (.vIPNetNil, none) ∧
      GoValue.vIPNetNil ≠ .vIPNet [10, 0, 0, 0] [255, 0, 0, 0]) ∧
    (fieldItemSet .tTime true (zeroValue .tTime)
        (fieldItemString (.vTime ⟨2021, 1, 2, 3, 4, 5, 500000000, 0⟩)) =
        (.vTime ⟨2021, 1, 2, 3, 4, 5, 0, 0⟩, none) ∧
      (⟨2021, 1, 2, 3, 4, 5, 0, 0⟩ : GoTime) ≠ ⟨2021, 1, 2, 3, 4, 5, 500000000, 0⟩) ∧
    (fieldItemSet .tIP true (zeroValue .tIP) (fieldItemString (.vIP [1, 2, 3, 4])) =
        (.vIP (v4InV6Marker ++ [1, 2, 3, 4]), none) ∧
      (v4InV6Marker ++ [1, 2, 3, 4] : List Nat) ≠ [1, 2, 3, 4] ∧
      ipEqual (v4InV6Marker ++ [1, 2, 3, 4]) [1, 2, 3, 4] = true) := by
  refine ⟨⟨rfl, by simp⟩, ⟨rfl, by simp⟩, ⟨rfl, by decide⟩, ⟨rfl, by decide, by decide⟩⟩

/-- C1 as amended: for the scalar kinds string, signed and unsigned
integer (int64/uint64 range), `true` bools, durations, timestamps of
whole seconds, and IP addresses (nil, 4-byte, or 16-byte), setting a
fresh zero field from the formatted text of a well-typed value `v`
restores `v` with no error — zero values format to the empty string and
are restored by the empty-input no-op, and an IP is restored up to
`net.IP.Equal` (a dotted quad parses back in 16-byte IPv4-in-IPv6 form).
Excluded by the counterexamples: `false` bools (come back `true`),
sub-second timestamps (truncated), and `*net.IPNet` fields (the
error-inverted CIDR branch never stores a parsed network); floats are
outside this development's scope, keeping the claim's own lossiness
exemption. -/
theorem C1_round_trip :
    (∀ s : List Char,
        fieldItemSet .tString true (zeroValue .tString)
          (fieldItemString (.vString s)) = (.vString s, none)) ∧
    (∀ i : Int, -(2 ^ 63) ≤ i → i < 2 ^ 63 →
        fieldItemSet .tInt true (zeroValue .tInt)
          (fieldItemString (.vInt i)) = (.vInt i, none)) ∧
    (∀ n : Nat, n < 2 ^ 64 →
        fieldItemSet .tUint true (zeroValue .tUint)
          (fieldItemString (.vUint n)) = (.vUint n, none)) ∧
    (fieldItemSet .tBool true (zeroValue .tBool)
        (fieldItemString (.vBool true)) = (.vBool true, none)) ∧
    (∀ d : Int, -(2 ^ 63) ≤ d → d < 2 ^ 63 →
        fieldItemSet .tDuration true (zeroValue .tDuration)
          (fieldItemString (.vDuration d)) = (.vDuration d, none)) ∧
    (∀ t : GoTime, goTimeValid t = true → t.nsec = 0 →
        fieldItemSet .tTime true (zeroValue .tTime)
          (fieldItemString (.vTime t)) = (.vTime t, none)) ∧
    (∀ bs : List Nat, (∀ b ∈ bs, b < 256) →
        bs.length = 0 ∨ bs.length = 4 ∨ bs.length = 16 →
        ∃ bs2, fieldItemSet .tIP true (zeroValue .tIP)
            (fieldItemString (.vIP bs)) = (.vIP bs2, none) ∧
          ipEqual bs2 bs = true) := by
  refine ⟨?_, ?_, ?_, rfl, ?_, ?_, ?_⟩
  · intro s
    by_cases hz : s = []
    · subst hz
      rfl
    · have hfmt : fieldItemString (.vString s) = s := by
        unfold fieldItemString
        rw [if_neg (by simp [goIsZero, hz])]
      rw [hfmt]
      unfold fieldItemSet fieldItemSetBody
      rw [if_neg (fun hcon => hz hcon.1)]
      rfl
  · intro i h1 h2
    by_cases hz : i = 0
    · subst hz
      rfl
    · have hfmt : fieldItemString (.vInt i) = goFormatInt i := by
        unfold fieldItemString
        rw [if_neg (by simp [goIsZero, hz])]
      rw [hfmt]
      have hne : goFormatInt i ≠ [] := by
        unfold goFormatInt
        split
        · exact List.cons_ne_nil _ _
        · exact formatNat_ne_nil _
      unfold fieldItemSet fieldItemSetBody
      rw [if_neg (fun hcon => hne hcon.1)]
      dsimp only
      rw [goParseInt64_goFormatInt i h1 h2]
      rfl
  · intro n hn
    by_cases hz : n = 0
    · subst hz
      rfl
    · have hfmt : fieldItemString (.vUint n) = goFormatUint n := by
        unfold fieldItemString
        rw [if_neg (by simp [goIsZero, hz])]
      rw [hfmt]
      have hne : goFormatUint n ≠ [] := formatNat_ne_nil n
      unfold fieldItemSet fieldItemSetBody
      rw [if_neg (fun hcon => hne hcon.1)]
      dsimp only
      rw [goParseUint64_goFormatUint n hn]
      rfl
  · intro d h1 h2
    by_cases hz : d = 0
    · subst hz
      rfl
    · have hfmt : fieldItemString (.vDuration d) = durationString d := by
        unfold fieldItemString
        rw [if_neg (by simp [goIsZero, hz])]
      rw [hfmt]
      have hne : durationString d ≠ [] := by
        have hlb := durationBody_len2 d.natAbs
        unfold durationString
        dsimp only
        split
        · exact List.cons_ne_nil _ _
        · intro hcon
          rw [hcon] at hlb
          simp at hlb
      unfold fieldItemSet fieldItemSetBody
      rw [if_neg (fun hcon => hne hcon.1)]
      dsimp only
      rw [goParseDuration_durationString d h1 h2]
      rfl
  · intro t hv hns
    by_cases hz : t = goTimeZero
    · subst hz
      rfl
    · have hfmt : fieldItemString (.vTime t) = rfc3339Format t := by
        unfold fieldItemString
        rw [if_neg (by simp [goIsZero, hz])]
      rw [hfmt]
      have hne : rfc3339Format t ≠ [] := by
        intro hcon
        have h := rfc3339Parse_format t hv hns
        rw [hcon] at h
        exact Option.noConfusion h
      unfold fieldItemSet fieldItemSetBody
      rw [if_neg (fun hcon => hne hcon.1)]
      dsimp only
      rw [rfc3339Parse_format t hv hns]
      rfl
  · intro bs hall hlen3
    rcases hlen3 with h0 | h4 | h16
    · have hnil : bs = [] := List.length_eq_zero.mp h0
      subst hnil
      exact ⟨[], rfl, rfl⟩
    · obtain ⟨a, b, c, d, rfl⟩ := list_len4 bs h4
      have ha : a ≤ 255 := by have := hall a (by simp); omega
      have hb : b ≤ 255 := by have := hall b (by simp); omega
      have hc : c ≤ 255 := by have := hall c (by simp); omega
      have hd : d ≤ 255 := by have := hall d (by simp); omega
      refine ⟨v4InV6Marker ++ [a, b, c, d], ?_, ipEqual_mapped a b c d⟩
      have hfmt : fieldItemString (.vIP [a, b, c, d]) =
          formatNat a ++ ('.' :: (formatNat b ++ ('.' :: (formatNat c ++
            ('.' :: formatNat d))))) := by
        unfold fieldItemString
        rw [if_neg (by simp [goIsZero])]
        dsimp only
        rw [if_neg (by simp)]
        exact goIPString_four a b c d
      rw [hfmt]
      have hne : formatNat a ++ ('.' :: (formatNat b ++ ('.' :: (formatNat c ++
          ('.' :: formatNat d))))) ≠ [] := by
        intro hcon
        rcases List.append_eq_nil.mp hcon with ⟨h1, _⟩
        exact formatNat_ne_nil _ h1
      unfold fieldItemSet fieldItemSetBody
      rw [if_neg (fun hcon => hne hcon.1)]
      dsimp only
      rw [goParseIP_quad a b c d ha hb hc hd]
      rfl
    · by_cases hm : bs.take 12 = v4InV6Marker
      · have hsplit : bs = v4InV6Marker ++ bs.drop 12 := by
          conv_lhs => rw [← List.take_append_drop 12 bs]
          rw [hm]
        have hdlen : (bs.drop 12).length = 4 := by
          rw [List.length_drop, h16]
        obtain ⟨a, b, c, d, hq⟩ := list_len4 (bs.drop 12) hdlen
        have ha : a ≤ 255 := by
          have := hall a (by rw [hsplit, hq]; simp)
          omega
        have hb : b ≤ 255 := by
          have := hall b (by rw [hsplit, hq]; simp)
          omega
        have hc : c ≤ 255 := by
          have := hall c (by rw [hsplit, hq]; simp)
          omega
        have hd : d ≤ 255 := by
          have := hall d (by rw [hsplit, hq]; simp)
          omega
        rw [hsplit, hq]
        refine ⟨v4InV6Marker ++ [a, b, c, d], ?_, ipEqual_refl _⟩
        have hfmt : fieldItemString (.vIP (v4InV6Marker ++ [a, b, c, d])) =
            formatNat a ++ ('.' :: (formatNat b ++ ('.' :: (formatNat c ++
              ('.' :: formatNat d))))) := by
          unfold fieldItemString
          rw [if_neg (by simp [goIsZero, v4InV6Marker])]
          dsimp only
          rw [if_neg (by simp [v4InV6Marker])]
          exact goIPString_mapped a b c d
        rw [hfmt]
        have hne : formatNat a ++ ('.' :: (formatNat b ++ ('.' :: (formatNat c ++
            ('.' :: formatNat d))))) ≠ [] := by
          intro hcon
          rcases List.append_eq_nil.mp hcon with ⟨h1, _⟩
          exact formatNat_ne_nil _ h1
        unfold fieldItemSet fieldItemSetBody
        rw [if_neg (fun hcon => hne hcon.1)]
        dsimp only
        rw [goParseIP_quad a b c d ha hb hc hd]
        rfl
      · refine ⟨bs, ?_, ipEqual_refl bs⟩
        have hbsne : bs ≠ [] := by
          intro hcon
          rw [hcon] at h16
          simp at h16
        have hfmt : fieldItemString (.vIP bs) = ipv6String bs := by
          unfold fieldItemString
          rw [if_neg (by simp [goIsZero, hbsne])]
          dsimp only
          rw [if_neg (by omega)]
          exact goIPString_v6 bs h16 hm
        rw [hfmt]
        have hcol := ipv6String_has_colon bs h16
        have hne : ipv6String bs ≠ [] := by
          intro hcon
          rw [hcon] at hcol
          simp at hcol
        unfold fieldItemSet fieldItemSetBody
        rw [if_neg (fun hcon => hne hcon.1)]
        dsimp only
        rw [← goIPString_v6 bs h16 hm, goParseIP_v6 bs h16 hall hm]
        rfl

theorem C1_round_trip_witness :
    fieldItemSet .tString true (zeroValue .tString)
      (fieldItemString (.vString ['h', 'i'])) = (.vString ['h', 'i'], none) ∧
    fieldItemSet .tInt true (zeroValue .tInt)
      (fieldItemString (.vInt (-42))) = (.vInt (-42), none) ∧
    fieldItemSet .tUint true (zeroValue .tUint)
      (fieldItemString (.vUint 7)) = (.vUint 7, none) ∧
    fieldItemSet .tDuration true (zeroValue .tDuration)
      (fieldItemString (.vDuration 5400000000000)) = (.vDuration 5400000000000, none) ∧
    fieldItemSet .tTime true (zeroValue .tTime)
      (fieldItemString (.vTime ⟨2021, 6, 1, 12, 30, 5, 0, 330⟩)) =
        (.vTime ⟨2021, 6, 1, 12, 30, 5, 0, 330⟩, none) ∧
    (∃ bs2, fieldItemSet .tIP true (zeroValue .tIP)
        (fieldItemString (.vIP [192, 168, 0, 1])) = (.vIP bs2, none) ∧
      ipEqual bs2 [192, 168, 0, 1] = true) :=
  ⟨C1_round_trip.1 ['h', 'i'],
   C1_round_trip.2.1 (-42) (by decide) (by decide),
   C1_round_trip.2.2.1 7 (by decide),
   C1_round_trip.2.2.2.2.1 5400000000000 (by decide) (by decide),
   C1_round_trip.2.2.2.2.2.1 ⟨2021, 6, 1, 12, 30, 5, 0, 330⟩ (by decide) rfl,
   C1_round_trip.2.2.2.2.2.2 [192, 168, 0, 1] (by decide) (by decide)⟩
